import Mathlib

/-!
Verification development for the python-code-analysis repository.

The Python sources under analysis (functions_parser.py, metadata_parser.py,
parsing_utils.py, std_library_parser.py) are shallowly embedded below.
Python syntax trees are modelled by the inductive `PyAST`, covering the node
kinds relevant to the counters (operator nodes such as ast.Add carry no
countable content and are elided; ast.alias objects are carried as plain
name/asname pairs since they contain no countable children).  The external
CPython parser (`ast.parse`) is modelled as a function parameter returning
either the body of the parsed module or a parse error.  Mutable Python dicts
are modelled as insertion-ordered association lists; `collections.Counter`
values are kept as the raw list of matches (the counter of a name is the
count of that name in the list).
-/

/-- Node kinds of the CPython abstract syntax tree used by the repository's
counters.  Field order inside each constructor follows the order of the
corresponding CPython node's `_fields`. -/
inductive PyAST where
  | Module (body : List PyAST)
  | Assign (targets : List PyAST) (value : PyAST)
  | ExprStmt (value : PyAST)
  | Call (func : PyAST) (args : List PyAST)
  | Attribute (value : PyAST) (attr : String)
  | Name (id : String)
  | BinOp (left : PyAST) (right : PyAST)
  | Constant
  | PyImport (names : List (String × Option String))
  | PyImportFrom (module : String) (names : List (String × Option String))

/-- Increment of a `collections.defaultdict(int)` entry: `counts[k] += 1`. -/
def bump (counts : String → Nat) (k : String) : String → Nat :=
  fun m => if m = k then counts m + 1 else counts m

mutual

/-- Embedding of `find_functions` from functions_parser.py (lines 29-69).
For `ast.Attribute` and `ast.Name` nodes the identifier is counted when it
belongs to `builtin_functions` and the node's AST children are then visited;
for an `ast.Call` node only `node.func` is visited; every other node kind
recurses into all of its AST children. -/
def find_functions : PyAST → (String → Nat) → List String → (String → Nat)
  | PyAST.Name idn, counts, builtin_functions =>
      if idn ∈ builtin_functions then bump counts idn else counts
  | PyAST.Attribute v a, counts, builtin_functions =>
      find_functions v (if a ∈ builtin_functions then bump counts a else counts) builtin_functions
  | PyAST.Call f _, counts, builtin_functions => find_functions f counts builtin_functions
  | PyAST.Module body, counts, builtin_functions => find_functions_children body counts builtin_functions
  | PyAST.Assign targets value, counts, builtin_functions =>
      find_functions value (find_functions_children targets counts builtin_functions) builtin_functions
  | PyAST.ExprStmt v, counts, builtin_functions => find_functions v counts builtin_functions
  | PyAST.BinOp l r, counts, builtin_functions =>
      find_functions r (find_functions l counts builtin_functions) builtin_functions
  | PyAST.Constant, counts, _ => counts
  | PyAST.PyImport _, counts, _ => counts
  | PyAST.PyImportFrom _ _, counts, _ => counts

/-- Left-to-right traversal of a list-valued AST field by `find_functions`. -/
def find_functions_children : List PyAST → (String → Nat) → List String → (String → Nat)
  | [], counts, _ => counts
  | n :: rest, counts, builtin_functions =>
      find_functions_children rest (find_functions n counts builtin_functions) builtin_functions

end

mutual

/-- Number of syntactic occurrences of the identifier `n` anywhere in the
tree: `ast.Name` nodes with id `n` and `ast.Attribute` nodes with attr `n`.
This is the occurrence notion of the specification sentence behind C1
(every occurrence, including those inside call argument lists). -/
def occAll (n : String) : PyAST → Nat
  | PyAST.Name idn => if idn = n then 1 else 0
  | PyAST.Attribute v a => (if a = n then 1 else 0) + occAll n v
  | PyAST.Call f args => occAll n f + occAllList n args
  | PyAST.Module body => occAllList n body
  | PyAST.Assign targets value => occAllList n targets + occAll n value
  | PyAST.ExprStmt v => occAll n v
  | PyAST.BinOp l r => occAll n l + occAll n r
  | PyAST.Constant => 0
  | PyAST.PyImport _ => 0
  | PyAST.PyImportFrom _ _ => 0

/-- Sum of `occAll` over a list of trees. -/
def occAllList (n : String) : List PyAST → Nat
  | [] => 0
  | t :: ts => occAll n t + occAllList n ts

end

mutual

/-- Number of syntactic occurrences of the identifier `n` in the part of the
tree actually traversed by `find_functions`: identical to `occAll` except
that for a call expression only the callee is visited, so occurrences inside
call argument lists are not counted. -/
def occReach (n : String) : PyAST → Nat
  | PyAST.Name idn => if idn = n then 1 else 0
  | PyAST.Attribute v a => (if a = n then 1 else 0) + occReach n v
  | PyAST.Call f _ => occReach n f
  | PyAST.Module body => occReachList n body
  | PyAST.Assign targets value => occReachList n targets + occReach n value
  | PyAST.ExprStmt v => occReach n v
  | PyAST.BinOp l r => occReach n l + occReach n r
  | PyAST.Constant => 0
  | PyAST.PyImport _ => 0
  | PyAST.PyImportFrom _ _ => 0

/-- Sum of `occReach` over a list of trees. -/
def occReachList (n : String) : List PyAST → Nat
  | [] => 0
  | t :: ts => occReach n t + occReachList n ts

end

/-- Modelled from the spec: the fixed set of builtin function names produced
by `get_builtin_functions` in functions_parser.py.  The Python source derives
it from the runtime as the names in `dir(__builtins__)` starting with a
lowercase letter; that environment-derived value is fixed here to the
lowercase names of CPython's builtins module. -/
def get_builtin_functions : List String :=
  ["abs", "aiter", "all", "anext", "any", "ascii", "bin", "bool",
   "breakpoint", "bytearray", "bytes", "callable", "chr", "classmethod",
   "compile", "complex", "delattr", "dict", "dir", "divmod", "enumerate",
   "eval", "exec", "filter", "float", "format", "frozenset", "getattr",
   "globals", "hasattr", "hash", "help", "hex", "id", "input", "int",
   "isinstance", "issubclass", "iter", "len", "list", "locals", "map",
   "max", "memoryview", "min", "next", "object", "oct", "open", "ord",
   "pow", "print", "property", "range", "repr", "reversed", "round",
   "set", "setattr", "slice", "sorted", "staticmethod", "str", "sum",
   "super", "tuple", "type", "vars", "zip"]

mutual

/-- The count accumulated by `find_functions` for a searched-for name `n` is
the initial count plus the number of occurrences of `n` in the traversed
part of the tree. -/
theorem find_functions_occReach :
    ∀ (t : PyAST) (counts : String → Nat) (b : List String) (n : String),
      n ∈ b → find_functions t counts b n = counts n + occReach n t
  | PyAST.Name idn, counts, b, n, hn => by
      by_cases h : idn ∈ b
      · by_cases he : idn = n
        · subst he
          simp [find_functions, occReach, bump, h]
        · simp [find_functions, occReach, bump, h, he, Ne.symm he]
      · have hne : idn ≠ n := fun he => h (he ▸ hn)
        simp [find_functions, occReach, h, hne]
  | PyAST.Attribute v a, counts, b, n, hn => by
      by_cases h : a ∈ b
      · by_cases he : a = n
        · subst he
          have hv := find_functions_occReach v (bump counts a) b a hn
          simp [find_functions, occReach, h, hv, bump]
          omega
        · have hv := find_functions_occReach v (bump counts a) b n hn
          simp [find_functions, occReach, h, he, hv, bump, Ne.symm he]
      · have hne : a ≠ n := fun he => h (he ▸ hn)
        have hv := find_functions_occReach v counts b n hn
        simp [find_functions, occReach, h, hne, hv]
  | PyAST.Call f args, counts, b, n, hn => by
      simp [find_functions, occReach, find_functions_occReach f counts b n hn]
  | PyAST.Module body, counts, b, n, hn => by
      simp [find_functions, occReach,
        find_functions_children_occReach body counts b n hn]
  | PyAST.Assign targets value, counts, b, n, hn => by
      have h1 := find_functions_children_occReach targets counts b n hn
      have h2 := find_functions_occReach value
        (find_functions_children targets counts b) b n hn
      simp [find_functions, occReach, h1, h2]
      omega
  | PyAST.ExprStmt v, counts, b, n, hn => by
      simp [find_functions, occReach, find_functions_occReach v counts b n hn]
  | PyAST.BinOp l r, counts, b, n, hn => by
      have h1 := find_functions_occReach l counts b n hn
      have h2 := find_functions_occReach r (find_functions l counts b) b n hn
      simp [find_functions, occReach, h1, h2]
      omega
  | PyAST.Constant, counts, b, n, hn => by simp [find_functions, occReach]
  | PyAST.PyImport _, counts, b, n, hn => by simp [find_functions, occReach]
  | PyAST.PyImportFrom _ _, counts, b, n, hn => by simp [find_functions, occReach]

/-- List version of `find_functions_occReach`. -/
theorem find_functions_children_occReach :
    ∀ (l : List PyAST) (counts : String → Nat) (b : List String) (n : String),
      n ∈ b → find_functions_children l counts b n = counts n + occReachList n l
  | [], counts, b, n, hn => by simp [find_functions_children, occReachList]
  | t :: rest, counts, b, n, hn => by
      have h1 := find_functions_occReach t counts b n hn
      have h2 := find_functions_children_occReach rest (find_functions t counts b) b n hn
      simp [find_functions_children, occReachList, h1, h2]
      omega

end

/-- C1 counterexample: the tree of `f(len)` — a call whose argument list
holds a bare reference to the builtin `len`.  `find_functions` only visits
the callee of a call expression, so the occurrence of `len` in the argument
list is missed and its count stays 0, although the tree contains exactly one
syntactic occurrence of `len`. -/
theorem find_functions_misses_call_argument :
    find_functions (PyAST.Call (PyAST.Name "f") [PyAST.Name "len"])
        (fun _ => 0) get_builtin_functions "len" = 0
    ∧ occAll "len" (PyAST.Call (PyAST.Name "f") [PyAST.Name "len"]) = 1 := by
  constructor
  · rfl
  · rfl

/-- C1 (amended): for every syntax tree and every name in the fixed set of
builtin function names, `find_functions` counts exactly the occurrences of
that name (direct calls, bare references and attribute identifiers) in the
part of the tree it traverses, which omits the argument lists of call
expressions: the final count is the initial count plus `occReach`. -/
theorem find_functions_counts_reachable_occurrences (t : PyAST)
    (counts : String → Nat) (n : String) (h : n ∈ get_builtin_functions) :
    find_functions t counts get_builtin_functions n = counts n + occReach n t :=
  find_functions_occReach t counts get_builtin_functions n h

/-- Witness for the amended C1 theorem at the tree of `obj.len`. -/
theorem find_functions_counts_reachable_occurrences_witness :
    "len" ∈ get_builtin_functions
    ∧ find_functions (PyAST.Attribute (PyAST.Name "obj") "len")
        (fun _ => 0) get_builtin_functions "len"
      = (fun _ => (0 : Nat)) "len"
        + occReach "len" (PyAST.Attribute (PyAST.Name "obj") "len") :=
  ⟨by decide, find_functions_counts_reachable_occurrences _ _ _ (by decide)⟩

/-- Analogue of `Except.isOk`: whether a result carries a value rather than
an exception. -/
def isOkE {ε β : Type} : Except ε β → Bool
  | Except.ok _ => true
  | Except.error _ => false

/-- Embedding of the result-collection stage of `process_file`
(functions_parser.py lines 123-125 and metadata_parser.py lines 101-103):
`pool.apply_async` submits one task per chunk and the comprehension
`[result.get() for result in results]` reads the results back in submission
order; `AsyncResult.get` re-raises, in the parent process, the exception
raised by a failed worker, so the first failing chunk's exception propagates
out of `process_file`. -/
def collect_results {α β ε : Type} (worker : α → Except ε β) : List α → Except ε (List β)
  | [] => Except.ok []
  | chunk :: rest =>
    match worker chunk with
    | Except.error e => Except.error e
    | Except.ok r =>
      match collect_results worker rest with
      | Except.error e => Except.error e
      | Except.ok rs => Except.ok (r :: rs)

/-- Worker used in the C2 counterexample: raises on the record "bad". -/
def c2Worker : String → Except String String :=
  fun c => if c = "bad" then Except.error "ValueError" else Except.ok c

/-- C2 counterexample: a batch of three records in which the middle record's
pipeline raises.  The batch does not complete with an empty result for the
failing record; the exception propagates and no result list is produced at
all. -/
theorem worker_failure_aborts_batch :
    collect_results c2Worker ["good1", "bad", "good2"] = Except.error "ValueError"
    ∧ ∀ l : List String, collect_results c2Worker ["good1", "bad", "good2"] ≠ Except.ok l := by
  refine ⟨by rfl, ?_⟩
  intro l h
  rw [show collect_results c2Worker ["good1", "bad", "good2"]
      = Except.error "ValueError" from rfl] at h
  exact Except.noConfusion h

/-- C2 (amended): the result collection of `process_file` yields a result
list if and only if every record's worker succeeded; any uncaught worker
exception aborts the whole file's batch instead of contributing an empty
result. -/
theorem collect_results_ok_iff {α β ε : Type} (worker : α → Except ε β)
    (chunks : List α) :
    isOkE (collect_results worker chunks) = true
      ↔ ∀ c ∈ chunks, isOkE (worker c) = true := by
  induction chunks with
  | nil => simp [collect_results, isOkE]
  | cons c rest ih =>
    cases hw : worker c with
    | error e => simp [collect_results, hw, isOkE]
    | ok r =>
      cases hr : collect_results worker rest with
      | error e =>
        rw [hr] at ih
        simp [collect_results, hw, hr, isOkE] at ih ⊢
        exact ih
      | ok rs =>
        rw [hr] at ih
        simp [collect_results, hw, hr, isOkE] at ih ⊢
        exact ih

/-- One row of a per-file result table: a snippet identifier and its
associated counter payload. -/
structure ParquetRow where
  chunk_id : String
  value : Nat
deriving DecidableEq, Repr

/-- Embedding of `concatenate_parquet_files` (parsing_utils.py lines 163-182
and std_library_parser.py lines 210-223): `pd.concat` appends the rows of
every per-file table in order.  Neither version checks identifier
uniqueness: the `set_index('chunk_id')` call in the parsing_utils version
marks the column as index without verifying integrity, and the
std_library_parser version concatenates without indexing at all. -/
def concatenate_parquet_files : List (List ParquetRow) → List ParquetRow
  | [] => []
  | df :: rest => df ++ concatenate_parquet_files rest

/-- Number of rows carrying a given snippet identifier. -/
def countRowsWithId (idc : String) (rows : List ParquetRow) : Nat :=
  rows.countP (fun r => r.chunk_id == idc)

/-- Modelled from the spec: an aggregator that detects duplicate snippet
identifiers across the per-file collections and reports them as an error
instead of keeping rows silently. -/
def aggregator_detecting_duplicates (dfs : List (List ParquetRow)) :
    Except String (List ParquetRow) :=
  let rows := concatenate_parquet_files dfs
  if (rows.map ParquetRow.chunk_id).Nodup then Except.ok rows
  else Except.error "duplicate chunk_id"

/-- C3 counterexample: two per-file collections sharing the identifier "a1".
The aggregator of the code keeps both rows and reports nothing, whereas the
duplicate-detecting aggregator demanded by the claim rejects this input. -/
theorem aggregator_keeps_duplicates_silently :
    concatenate_parquet_files [[⟨"a1", 1⟩], [⟨"a1", 2⟩]] = [⟨"a1", 1⟩, ⟨"a1", 2⟩]
    ∧ countRowsWithId "a1" (concatenate_parquet_files [[⟨"a1", 1⟩], [⟨"a1", 2⟩]]) = 2
    ∧ isOkE (aggregator_detecting_duplicates [[⟨"a1", 1⟩], [⟨"a1", 2⟩]]) = false := by
  refine ⟨rfl, rfl, by decide⟩

/-- C3 (amended): the aggregator concatenates the per-file collections
row-for-row: for every identifier, the number of rows carrying it in the
final table is the sum of its row counts across the inputs.  Duplicate
identifiers are therefore retained in full and are neither detected nor
reported. -/
theorem concatenate_preserves_every_row (dfs : List (List ParquetRow))
    (idc : String) :
    countRowsWithId idc (concatenate_parquet_files dfs)
      = (dfs.map (countRowsWithId idc)).sum := by
  induction dfs with
  | nil => simp [concatenate_parquet_files, countRowsWithId]
  | cons df rest ih =>
    simp only [concatenate_parquet_files, countRowsWithId, List.countP_append,
      List.map_cons, List.sum_cons] at *
    omega

/-- Failure modes of the external CPython parser `ast.parse`: the exception
classes caught by `parse_to_ast` in parsing_utils.py (`SyntaxError`,
`MemoryError`, and every other `Exception` subclass; CPython reports parse
failures only through `Exception` subclasses). -/
inductive PyParseError where
  | syntaxError
  | memoryError
  | otherException
deriving DecidableEq, Repr

/-- Embedding of `parse_to_ast` (parsing_utils.py lines 122-142).  The
external `ast.parse` is the parameter `parser`, returning the body of the
parsed module or a parse error.  On `SyntaxError`, `MemoryError`, or any
other exception, the function returns `ast.parse('')`, the tree of the
empty document (`Module []`). -/
def parse_to_ast (parser : String → Except PyParseError (List PyAST))
    (cleaned_code : String) : PyAST :=
  match parser cleaned_code with
  | Except.ok body => PyAST.Module body
  | Except.error PyParseError.syntaxError => PyAST.Module []
  | Except.error PyParseError.memoryError => PyAST.Module []
  | Except.error PyParseError.otherException => PyAST.Module []

/-- C6: the tree builder is total — for every parser behaviour and every
input string, `parse_to_ast` returns a syntax tree: either the tree produced
by the parser, or, on any parse failure, the empty-document sentinel
`Module []`; a failure is never propagated. -/
theorem parse_to_ast_total_with_empty_sentinel
    (parser : String → Except PyParseError (List PyAST)) (s : String) :
    (∃ body, parser s = Except.ok body ∧ parse_to_ast parser s = PyAST.Module body)
    ∨ parse_to_ast parser s = PyAST.Module [] := by
  cases h : parser s with
  | ok body => exact Or.inl ⟨body, rfl, by simp [parse_to_ast, h]⟩
  | error e => cases e <;> exact Or.inr (by simp [parse_to_ast, h])

/-- Whether a character is one of the line boundaries recognised by Python's
`str.splitlines`. -/
def lineBoundary (c : Char) : Bool :=
  c == '\n' || c == '\r' || c == '\x0b' || c == '\x0c' || c == '\x1c'
    || c == '\x1d' || c == '\x1e' || c == '\x85' || c == '\u2028' || c == '\u2029'

/-- Embedding of Python's `str.splitlines`: accumulates the current line in
`cur`; `afterCR` records that the previous character was a carriage return,
so that a directly following line feed is consumed without starting a new
line (the `\r\n` digraph is a single boundary).  A final partial line is
kept only when non-empty. -/
def splitlinesGo : List Char → List Char → Bool → List (List Char)
  | [], cur, _ => if cur = [] then [] else [cur]
  | c :: rest, cur, afterCR =>
    if afterCR && c == '\n' then splitlinesGo rest cur false
    else if c == '\r' then cur :: splitlinesGo rest [] true
    else if lineBoundary c then cur :: splitlinesGo rest [] false
    else splitlinesGo rest (cur ++ [c]) false

/-- Python's `str.splitlines` on a character list. -/
def splitlinesL (s : List Char) : List (List Char) := splitlinesGo s [] false

/-- Whether `pat` is a prefix of `s` (the `re.match(r'^...')` tests of
`remove_merge_conflicts` are plain prefix tests). -/
def startsWithChars : List Char → List Char → Bool
  | [], _ => true
  | _ :: _, [] => false
  | p :: ps, c :: cs => p == c && startsWithChars ps cs

/-- The conflict-start marker `<<<<<<<`. -/
def markerStart : List Char := "<<<<<<<".data

/-- The conflict-separator marker `=======`. -/
def markerMid : List Char := "=======".data

/-- The conflict-end marker `>>>>>>>`. -/
def markerEnd : List Char := ">>>>>>>".data

/-- The line-filtering loop of `remove_merge_conflicts` (parsing_utils.py
lines 28-38): a line starting the conflict marker sets the in-conflict
flag and is dropped; a separator line clears the flag and is dropped; a
terminal-marker line is dropped without touching the flag; any other line
is kept exactly when the flag is clear. -/
def keepLines : List (List Char) → Bool → List (List Char)
  | [], _ => []
  | line :: rest, in_conflict =>
    if startsWithChars markerStart line then keepLines rest true
    else if startsWithChars markerMid line then keepLines rest false
    else if startsWithChars markerEnd line then keepLines rest in_conflict
    else if in_conflict then keepLines rest in_conflict
    else line :: keepLines rest in_conflict

/-- Python's `'\n'.join` on character lists. -/
def joinNL : List (List Char) → List Char
  | [] => []
  | [l] => l
  | l :: rest => l ++ '\n' :: joinNL rest

/-- Embedding of `remove_merge_conflicts` (parsing_utils.py lines 14-40):
split into lines, drop conflict regions and marker lines, join the kept
lines with a line feed. -/
def remove_merge_conflicts (code : String) : String :=
  String.mk (joinNL (keepLines (splitlinesL code.data) false))

/-- C5 counterexample: `remove_merge_conflicts` is not idempotent.  On the
input "a\n\n" (no conflict markers at all) one application yields "a\n" —
`splitlines` produces the lines ["a", ""] and the join restores only one of
the two trailing newlines — and a second application yields "a". -/
theorem remove_merge_conflicts_not_idempotent :
    remove_merge_conflicts (remove_merge_conflicts "a\n\n")
      ≠ remove_merge_conflicts "a\n\n" := by
  decide

/-- Every line produced by `splitlinesGo` is free of line-boundary
characters, provided the accumulated partial line is. -/
theorem splitlinesGo_lines_boundary_free (s : List Char) :
    ∀ (cur : List Char) (afterCR : Bool),
      (∀ c ∈ cur, lineBoundary c = false) →
      ∀ l ∈ splitlinesGo s cur afterCR, ∀ c ∈ l, lineBoundary c = false := by
  induction s with
  | nil =>
    intro cur afterCR hcur l hl
    by_cases hc : cur = []
    · simp [splitlinesGo, hc] at hl
    · simp [splitlinesGo, hc] at hl
      subst hl
      exact hcur
  | cons c rest ih =>
    intro cur afterCR hcur l hl
    by_cases h1 : (afterCR && c == '\n') = true
    · simp only [splitlinesGo, h1, if_true] at hl
      exact ih cur false hcur l hl
    · by_cases h2 : (c == '\r') = true
      · simp only [splitlinesGo, h1, h2, if_false, if_true, Bool.false_eq_true] at hl
        rcases List.mem_cons.mp hl with h | h
        · subst h; exact hcur
        · exact ih [] true (by simp) l h
      · by_cases h3 : lineBoundary c = true
        · simp only [splitlinesGo, h1, h2, h3, if_false, if_true, Bool.false_eq_true] at hl
          rcases List.mem_cons.mp hl with h | h
          · subst h; exact hcur
          · exact ih [] false (by simp) l h
        · simp only [splitlinesGo, h1, h2, h3, if_false, Bool.false_eq_true] at hl
          refine ih (cur ++ [c]) false ?_ l hl
          intro c' hc'
          rcases List.mem_append.mp hc' with h | h
          · exact hcur c' h
          · rw [List.mem_singleton.mp h]
            exact Bool.eq_false_iff.mpr h3

/-- Every line kept by the conflict filter is a line of the input. -/
theorem keepLines_mem :
    ∀ (lines : List (List Char)) (inC : Bool) (l : List Char),
      l ∈ keepLines lines inC → l ∈ lines := by
  intro lines
  induction lines with
  | nil => intro inC l h; simp [keepLines] at h
  | cons line rest ih =>
    intro inC l h
    simp only [keepLines] at h
    split at h
    · exact List.mem_cons_of_mem _ (ih _ _ h)
    · split at h
      · exact List.mem_cons_of_mem _ (ih _ _ h)
      · split at h
        · exact List.mem_cons_of_mem _ (ih _ _ h)
        · split at h
          · exact List.mem_cons_of_mem _ (ih _ _ h)
          · rcases List.mem_cons.mp h with h | h
            · exact h ▸ List.mem_cons_self _ _
            · exact List.mem_cons_of_mem _ (ih _ _ h)

/-- No line kept by the conflict filter starts with one of the three
conflict markers. -/
theorem keepLines_no_marker :
    ∀ (lines : List (List Char)) (inC : Bool) (l : List Char),
      l ∈ keepLines lines inC →
      startsWithChars markerStart l = false
        ∧ startsWithChars markerMid l = false
        ∧ startsWithChars markerEnd l = false := by
  intro lines
  induction lines with
  | nil => intro inC l h; simp [keepLines] at h
  | cons line rest ih =>
    intro inC l h
    simp only [keepLines] at h
    split at h
    · exact ih _ _ h
    · split at h
      · exact ih _ _ h
      · split at h
        · exact ih _ _ h
        · split at h
          · exact ih _ _ h
          · rcases List.mem_cons.mp h with h | h
            · subst h
              refine ⟨Bool.eq_false_iff.mpr (by assumption),
                Bool.eq_false_iff.mpr (by assumption),
                Bool.eq_false_iff.mpr (by assumption)⟩
            · exact ih _ _ h

/-- On marker-free lines the conflict filter keeps everything. -/
theorem keepLines_id :
    ∀ (lines : List (List Char)),
      (∀ l ∈ lines,
        startsWithChars markerStart l = false
          ∧ startsWithChars markerMid l = false
          ∧ startsWithChars markerEnd l = false) →
      keepLines lines false = lines := by
  intro lines
  induction lines with
  | nil => intro _; rfl
  | cons line rest ih =>
    intro h
    obtain ⟨h1, h2, h3⟩ := h line (List.mem_cons_self _ _)
    simp only [keepLines, h1, h2, h3, Bool.false_eq_true, if_false]
    rw [ih (fun l hl => h l (List.mem_cons_of_mem _ hl))]

/-- Splitting a boundary-free line yields just that line (empty input with
an empty accumulator yields no lines at all). -/
theorem splitlinesGo_no_boundary (l : List Char) :
    ∀ (cur : List Char), (∀ c ∈ l, lineBoundary c = false) →
      splitlinesGo l cur false = if (cur ++ l) = [] then [] else [cur ++ l] := by
  induction l with
  | nil => intro cur _; simp [splitlinesGo]
  | cons c rest ih =>
    intro cur h
    have hc : lineBoundary c = false := h c (List.mem_cons_self _ _)
    have hcr : (c == '\r') = false := by
      cases hq : (c == '\r') with
      | false => rfl
      | true =>
        rw [show c = '\r' from beq_iff_eq.mp hq] at hc
        simp [lineBoundary] at hc
    simp only [splitlinesGo, Bool.false_and, hcr, hc, Bool.false_eq_true, if_false]
    rw [ih (cur ++ [c]) (fun c' hc' => h c' (List.mem_cons_of_mem _ hc'))]
    simp

/-- Splitting a boundary-free line followed by a line feed emits the
accumulated line and continues on the remainder. -/
theorem splitlinesGo_line_nl (l : List Char) :
    ∀ (cur rest : List Char), (∀ c ∈ l, lineBoundary c = false) →
      splitlinesGo (l ++ '\n' :: rest) cur false
        = (cur ++ l) :: splitlinesGo rest [] false := by
  induction l with
  | nil =>
    intro cur rest _
    simp [splitlinesGo, lineBoundary]
  | cons c tail ih =>
    intro cur rest h
    have hc : lineBoundary c = false := h c (List.mem_cons_self _ _)
    have hcr : (c == '\r') = false := by
      cases hq : (c == '\r') with
      | false => rfl
      | true =>
        rw [show c = '\r' from beq_iff_eq.mp hq] at hc
        simp [lineBoundary] at hc
    simp only [List.cons_append, splitlinesGo, Bool.false_and, hcr, hc,
      Bool.false_eq_true, if_false, List.append_eq]
    rw [ih (cur ++ [c]) rest (fun c' hc' => h c' (List.mem_cons_of_mem _ hc'))]
    simp

/-- Joining boundary-free lines whose last line is non-empty and re-splitting
recovers the lines exactly. -/
theorem joinNL_roundtrip :
    ∀ (ls : List (List Char)),
      (∀ l ∈ ls, ∀ c ∈ l, lineBoundary c = false) →
      ls.getLast? ≠ some [] →
      splitlinesL (joinNL ls) = ls := by
  intro ls
  induction ls with
  | nil => intro _ _; rfl
  | cons l rest ih =>
    cases rest with
    | nil =>
      intro h hlast
      have hl : l ≠ [] := by
        intro he
        exact hlast (by simp [he])
      show splitlinesGo (joinNL [l]) [] false = [l]
      rw [show joinNL [l] = l from rfl,
        splitlinesGo_no_boundary l [] (h l (List.mem_cons_self _ _))]
      simp [hl]
    | cons l2 rest2 =>
      intro h hlast
      show splitlinesGo (joinNL (l :: l2 :: rest2)) [] false = l :: l2 :: rest2
      rw [show joinNL (l :: l2 :: rest2) = l ++ '\n' :: joinNL (l2 :: rest2) from rfl,
        splitlinesGo_line_nl l [] (joinNL (l2 :: rest2)) (h l (List.mem_cons_self _ _))]
      have := ih (fun l' hl' => h l' (List.mem_cons_of_mem _ hl'))
        (by rwa [List.getLast?_cons_cons] at hlast)
      simpa [splitlinesL] using this

/-- Joining at least two lines of which the last is empty produces text
ending in a line feed. -/
theorem joinNL_getLast_nl :
    ∀ (ls : List (List Char)), ls.getLast? = some [] → 2 ≤ ls.length →
      (joinNL ls).getLast? = some '\n' := by
  intro ls
  induction ls with
  | nil => intro h _; simp at h
  | cons l rest ih =>
    cases rest with
    | nil => intro _ hlen; simp at hlen
    | cons l2 rest2 =>
      intro hlast _
      rw [show joinNL (l :: l2 :: rest2) = l ++ '\n' :: joinNL (l2 :: rest2) from rfl]
      cases rest2 with
      | nil =>
        have hl2 : l2 = [] := by simpa using hlast
        subst hl2
        rw [show l ++ '\n' :: joinNL [([] : List Char)] = l ++ ['\n'] from rfl,
          List.getLast?_append]
        rfl
      | cons l3 rest3 =>
        have hlast2 : (l2 :: l3 :: rest3).getLast? = some [] := by
          rwa [List.getLast?_cons_cons] at hlast
        have hrec := ih hlast2 (by simp)
        rw [show l ++ '\n' :: joinNL (l2 :: l3 :: rest3)
            = l ++ ['\n'] ++ joinNL (l2 :: l3 :: rest3) from by simp,
          List.getLast?_append, hrec]
        rfl

/-- Conflict-marker removal is idempotent on every input whose once-cleaned
text does not end in a line feed: the kept lines are marker-free and
boundary-free, so the second split/filter/join round trip is the
identity. -/
theorem remove_merge_conflicts_idempotent_unless_trailing_nl (x : String)
    (h : (remove_merge_conflicts x).data.getLast? ≠ some '\n') :
    remove_merge_conflicts (remove_merge_conflicts x) = remove_merge_conflicts x := by
  have hbf : ∀ l ∈ keepLines (splitlinesL x.data) false, ∀ c ∈ l, lineBoundary c = false := by
    intro l hl
    exact splitlinesGo_lines_boundary_free x.data [] false (by simp) l
      (keepLines_mem _ _ _ hl)
  have hmk := fun l hl => keepLines_no_marker (splitlinesL x.data) false l hl
  by_cases hlast : (keepLines (splitlinesL x.data) false).getLast? = some []
  · cases hq : keepLines (splitlinesL x.data) false with
    | nil =>
      have hre : remove_merge_conflicts x = "" := by
        simp only [remove_merge_conflicts, hq, joinNL]
      rw [hre]
      decide
    | cons l rest =>
      cases rest with
      | nil =>
        rw [hq] at hlast
        have hlnil : l = [] := by simpa using hlast
        subst hlnil
        have hre : remove_merge_conflicts x = "" := by
          simp only [remove_merge_conflicts, hq, joinNL]
        rw [hre]
        decide
      | cons l2 rest2 =>
        exfalso
        apply h
        rw [hq] at hlast
        have hdata : (remove_merge_conflicts x).data
            = joinNL (keepLines (splitlinesL x.data) false) := rfl
        rw [hdata, hq]
        exact joinNL_getLast_nl (l :: l2 :: rest2) hlast (by simp)
  · have hround : splitlinesL (joinNL (keepLines (splitlinesL x.data) false))
        = keepLines (splitlinesL x.data) false := joinNL_roundtrip _ hbf hlast
    calc remove_merge_conflicts (remove_merge_conflicts x)
        = String.mk (joinNL (keepLines
            (splitlinesL (joinNL (keepLines (splitlinesL x.data) false))) false)) := rfl
      _ = String.mk (joinNL (keepLines (keepLines (splitlinesL x.data) false) false)) := by
            rw [hround]
      _ = String.mk (joinNL (keepLines (splitlinesL x.data) false)) := by
            rw [keepLines_id _ hmk]
      _ = remove_merge_conflicts x := rfl

/-- Input used by the C5 witness: a merge conflict followed by a final
non-empty line. -/
def conflictedSnippet : String :=
  "<<<<<<< HEAD\nours\n=======\ntheirs\n>>>>>>> branch\ndone"

/-- If the last line of a non-empty line list is non-empty, the joined text
ends in the last character of that last line. -/
theorem joinNL_getLast_of_ne_nil :
    ∀ (ls : List (List Char)) (L : List Char), ls.getLast? = some L → L ≠ [] →
      (joinNL ls).getLast? = L.getLast? := by
  intro ls
  induction ls with
  | nil => intro L h _; simp at h
  | cons l rest ih =>
    cases rest with
    | nil =>
      intro L h _
      have hL : L = l := by simpa using h.symm
      subst hL
      rfl
    | cons l2 rest2 =>
      intro L h hne
      have h2 : (l2 :: rest2).getLast? = some L := by
        rwa [List.getLast?_cons_cons] at h
      have hrec := ih L h2 hne
      obtain ⟨c, hc⟩ : ∃ c, L.getLast? = some c := by
        cases hq : L.getLast? with
        | none => exact absurd (by rwa [List.getLast?_eq_none_iff] at hq) hne
        | some c => exact ⟨c, rfl⟩
      rw [show joinNL (l :: l2 :: rest2)
          = l ++ ['\n'] ++ joinNL (l2 :: rest2) from by simp [joinNL],
        List.getLast?_append, hrec, hc]
      rfl

/-- Joining at least two lines of which the last is empty equals joining
all but the last line and appending one line feed. -/
theorem joinNL_eq_dropLast_append_nl :
    ∀ (ls : List (List Char)), 2 ≤ ls.length → ls.getLast? = some [] →
      joinNL ls = joinNL ls.dropLast ++ ['\n'] := by
  intro ls
  induction ls with
  | nil => intro h _; simp at h
  | cons l rest ih =>
    cases rest with
    | nil => intro h _; simp at h
    | cons l2 rest2 =>
      intro _ hlast
      cases rest2 with
      | nil =>
        have hl2 : l2 = [] := by simpa using hlast
        subst hl2
        rfl
      | cons l3 rest3 =>
        have hlast2 : (l2 :: l3 :: rest3).getLast? = some [] := by
          rwa [List.getLast?_cons_cons] at hlast
        have hrec := ih (by simp) hlast2
        show l ++ '\n' :: joinNL (l2 :: l3 :: rest3)
          = joinNL (l :: (l2 :: l3 :: rest3).dropLast) ++ ['\n']
        rw [hrec]
        have hDne : (l2 :: l3 :: rest3).dropLast ≠ [] := by
          simp [List.dropLast]
        cases hq : (l2 :: l3 :: rest3).dropLast with
        | nil => exact absurd hq hDne
        | cons d ds =>
          rw [show joinNL (l :: d :: ds) = l ++ '\n' :: joinNL (d :: ds) from rfl]
          simp

/-- Splitting the joined form of non-empty, boundary-free lines followed by
one line feed recovers the lines exactly: the final line feed closes the
last line and leaves no trailing partial line. -/
theorem splitlinesL_joinNL_append_nl :
    ∀ (D : List (List Char)), D ≠ [] →
      (∀ l ∈ D, ∀ c ∈ l, lineBoundary c = false) →
      splitlinesL (joinNL D ++ ['\n']) = D := by
  intro D
  induction D with
  | nil => intro h _; exact absurd rfl h
  | cons l rest ih =>
    cases rest with
    | nil =>
      intro _ hbf
      show splitlinesGo (joinNL [l] ++ '\n' :: []) [] false = [l]
      rw [show joinNL [l] = l from rfl,
        splitlinesGo_line_nl l [] [] (hbf l (List.mem_cons_self _ _))]
      rfl
    | cons l2 rest2 =>
      intro _ hbf
      show splitlinesGo (joinNL (l :: l2 :: rest2) ++ '\n' :: []) [] false
        = l :: l2 :: rest2
      rw [show joinNL (l :: l2 :: rest2) = l ++ '\n' :: joinNL (l2 :: rest2) from rfl]
      rw [show (l ++ '\n' :: joinNL (l2 :: rest2)) ++ '\n' :: []
          = l ++ '\n' :: (joinNL (l2 :: rest2) ++ '\n' :: []) from by simp,
        splitlinesGo_line_nl l [] _ (hbf l (List.mem_cons_self _ _))]
      have := ih (by simp) (fun l' hl' => hbf l' (List.mem_cons_of_mem _ hl'))
      simpa [splitlinesL] using this

/-- C5 (amended): conflict-marker removal is idempotent on every input whose
once-cleaned text does not end in a line feed; when the once-cleaned text
does end in a line feed, a second application strips exactly that trailing
line feed (the `splitlines`/join round trip drops a trailing empty line). -/
theorem remove_merge_conflicts_second_pass (x : String) :
    ((remove_merge_conflicts x).data.getLast? ≠ some '\n' →
      remove_merge_conflicts (remove_merge_conflicts x) = remove_merge_conflicts x)
    ∧ ((remove_merge_conflicts x).data.getLast? = some '\n' →
      remove_merge_conflicts (remove_merge_conflicts x) ++ "\n"
        = remove_merge_conflicts x) := by
  constructor
  · exact remove_merge_conflicts_idempotent_unless_trailing_nl x
  · intro h
    have hbf : ∀ l ∈ keepLines (splitlinesL x.data) false, ∀ c ∈ l, lineBoundary c = false := by
      intro l hl
      exact splitlinesGo_lines_boundary_free x.data [] false (by simp) l
        (keepLines_mem _ _ _ hl)
    have hmk := fun l hl => keepLines_no_marker (splitlinesL x.data) false l hl
    have hdata : (remove_merge_conflicts x).data
        = joinNL (keepLines (splitlinesL x.data) false) := rfl
    by_cases hlast : (keepLines (splitlinesL x.data) false).getLast? = some []
    · cases hq : keepLines (splitlinesL x.data) false with
      | nil =>
        exfalso
        rw [hdata, hq] at h
        simp [joinNL] at h
      | cons l rest =>
        cases rest with
        | nil =>
          exfalso
          rw [hq] at hlast
          have hlnil : l = [] := by simpa using hlast
          subst hlnil
          rw [hdata, hq] at h
          simp [joinNL] at h
        | cons l2 rest2 =>
          rw [hq] at hlast
          have hdrop : joinNL (l :: l2 :: rest2)
              = joinNL (l :: l2 :: rest2).dropLast ++ ['\n'] :=
            joinNL_eq_dropLast_append_nl (l :: l2 :: rest2) (by simp) hlast
          have hDne : (l :: l2 :: rest2).dropLast ≠ [] := by
            simp [List.dropLast]
          have hbfD : ∀ l' ∈ (l :: l2 :: rest2).dropLast, ∀ c ∈ l', lineBoundary c = false := by
            intro l' hl'
            exact hbf l' (by rw [hq]; exact (List.dropLast_sublist _).subset hl')
          have hmkD : ∀ l' ∈ (l :: l2 :: rest2).dropLast,
              startsWithChars markerStart l' = false
              ∧ startsWithChars markerMid l' = false
              ∧ startsWithChars markerEnd l' = false := by
            intro l' hl'
            exact hmk l' (by rw [hq]; exact (List.dropLast_sublist _).subset hl')
          have hsplit : splitlinesL (joinNL (l :: l2 :: rest2))
              = (l :: l2 :: rest2).dropLast := by
            rw [hdrop]
            exact splitlinesL_joinNL_append_nl _ hDne hbfD
          apply String.ext
          show (String.mk (joinNL (keepLines
              (splitlinesL (joinNL (keepLines (splitlinesL x.data) false))) false))).data
              ++ "\n".data = joinNL (keepLines (splitlinesL x.data) false)
          rw [hq, hsplit, keepLines_id _ hmkD]
          rw [show ("\n" : String).data = ['\n'] from rfl]
          exact hdrop.symm
    · exfalso
      cases hq : keepLines (splitlinesL x.data) false with
      | nil =>
        rw [hdata, hq] at h
        simp [joinNL] at h
      | cons l rest =>
        obtain ⟨L, hL⟩ : ∃ L, (l :: rest).getLast? = some L := by
          cases hg : (l :: rest).getLast? with
          | none => simp [List.getLast?_eq_none_iff] at hg
          | some L => exact ⟨L, rfl⟩
        have hLne : L ≠ [] := by
          intro he
          subst he
          rw [hq] at hlast
          exact hlast hL
        have hjl : (joinNL (l :: rest)).getLast? = L.getLast? :=
          joinNL_getLast_of_ne_nil (l :: rest) L hL hLne
        rw [hdata, hq, hjl] at h
        have hmem : '\n' ∈ L := List.mem_of_mem_getLast? h
        have hLmem : L ∈ keepLines (splitlinesL x.data) false := by
          rw [hq]
          exact List.mem_of_mem_getLast? hL
        have := hbf L hLmem '\n' hmem
        simp [lineBoundary] at this

/-- Witness for the amended C5 theorem: on a snippet with an actual merge
conflict the cleaned text ends in a non-newline character and removal is
idempotent; on "a\n\n" the cleaned text ends in a line feed and the second
application strips exactly that line feed. -/
theorem remove_merge_conflicts_second_pass_witness :
    ((remove_merge_conflicts conflictedSnippet).data.getLast? ≠ some '\n'
      ∧ remove_merge_conflicts (remove_merge_conflicts conflictedSnippet)
          = remove_merge_conflicts conflictedSnippet)
    ∧ ((remove_merge_conflicts "a\n\n").data.getLast? = some '\n'
      ∧ remove_merge_conflicts (remove_merge_conflicts "a\n\n") ++ "\n"
          = remove_merge_conflicts "a\n\n") :=
  ⟨⟨by decide, (remove_merge_conflicts_second_pass conflictedSnippet).1 (by decide)⟩,
   ⟨by decide, (remove_merge_conflicts_second_pass "a\n\n").2 (by decide)⟩⟩

/-- Whether a character is in the class `[a-z0-9]` used by the identifier
part of the record-header pattern. -/
def isLowerAlnum (c : Char) : Bool := ('a' ≤ c && c ≤ 'z') || ('0' ≤ c && c ≤ '9')

/-- Whether a character is in the class `[a-f0-9]`: a lowercase hexadecimal
digit, the identifier alphabet named by the specification. -/
def isLowerHex (c : Char) : Bool := ('a' ≤ c && c ≤ 'f') || ('0' ≤ c && c ≤ '9')

/-- Whether a character is a decimal digit (`\d` on the ASCII dump text). -/
def isDigitC (c : Char) : Bool := '0' ≤ c && c ≤ '9'

/-- Take exactly `n` characters satisfying `p` from the front of the list,
returning them and the remainder. -/
def takeExact : Nat → (Char → Bool) → List Char → Option (List Char × List Char)
  | 0, _, t => some ([], t)
  | _ + 1, _, [] => none
  | n + 1, p, c :: t =>
    if p c then
      match takeExact n p t with
      | some (xs, r) => some (c :: xs, r)
      | none => none
    else none

/-- Take the maximal run of decimal digits from the front of the list. -/
def takeDigits : List Char → List Char × List Char
  | [] => ([], [])
  | c :: t =>
    if isDigitC c then
      match takeDigits t with
      | (ds, r) => (c :: ds, r)
    else ([], c :: t)

/-- One attempted match of the record-header pattern at the start of `text`:
forty characters of the identifier alphabet `idp`, a comma, a non-empty
digit run, a comma, a double quote.  The greedy `\d+` of the source pattern
is a maximal digit run here: the character after it must be a comma, and no
shorter run can be followed by a comma, so backtracking never helps. -/
def headerMatchAt (idp : Char → Bool) (text : List Char) : Option (List Char) :=
  match takeExact 40 idp text with
  | none => none
  | some (idc, rest1) =>
    match rest1 with
    | ',' :: rest2 =>
      match takeDigits rest2 with
      | ([], _) => none
      | (ds, rest3) =>
        match rest3 with
        | ',' :: '"' :: _ => some (idc ++ ',' :: ds ++ [',', '"'])
        | _ => none
    | _ => none

/-- Leftmost match of the header pattern: `re.search` tries every start
position from the left and returns the first match. -/
def searchHeaderWith (idp : Char → Bool) : List Char → Option (List Char)
  | [] => none
  | c :: t =>
    match headerMatchAt idp (c :: t) with
    | some m => some m
    | none => searchHeaderWith idp t

/-- The header search of the source: `re.search(r'[a-z0-9]{40},\d+,"', s)`
(parsing_utils.py line 93 and std_library_parser.py line 103). -/
def searchHeader (s : List Char) : Option (List Char) := searchHeaderWith isLowerAlnum s

/-- Modelled from the spec: the same header search but with the identifier
alphabet the specification states, a 40-character lowercase hexadecimal
string. -/
def searchHeaderHex (s : List Char) : Option (List Char) := searchHeaderWith isLowerHex s

/-- Scanner of Python's `str.replace`: replace every non-overlapping
occurrence of the non-empty pattern `p :: ps`, scanning left to right.  One
unit of fuel is spent per scanned position; called with fuel at least the
text length (as `replaceAllL` does) the zero-fuel branch is never reached,
and the structural recursion on fuel keeps the function kernel-reducible. -/
def replaceAllGo (p : Char) (ps repl : List Char) : Nat → List Char → List Char
  | _, [] => []
  | 0, t => t
  | fuel + 1, c :: t =>
    if startsWithChars (p :: ps) (c :: t) then
      repl ++ replaceAllGo p ps repl fuel (t.drop ps.length)
    else c :: replaceAllGo p ps repl fuel t

/-- Python's `str.replace(old, new)` on character lists (the embedded calls
never use an empty pattern). -/
def replaceAllL (text pat repl : List Char) : List Char :=
  match pat with
  | [] => text
  | p :: ps => replaceAllGo p ps repl text.length text

/-- Whether `pat` occurs as a contiguous substring (Python's `in`). -/
def containsSub (pat : List Char) : List Char → Bool
  | [] => startsWithChars pat []
  | c :: t => startsWithChars pat (c :: t) || containsSub pat t

/-- Embedding of `is_ipynb` (parsing_utils.py lines 68-80): a snippet is
classified as a notebook when it contains a code-cell or markdown-cell
marker substring. -/
def is_ipynb (code : String) : Bool :=
  containsSub ("\"cell_type\": \"code\"".data) code.data
    || containsSub ("\"cell_type\": \"markdown\"".data) code.data

/-- Embedding of `extract_code` (parsing_utils.py lines 83-97): search for
the header pattern; absence yields the pair of empty strings, presence
yields the chunk with every occurrence of the matched header removed,
together with the header. -/
def extract_code (code_chunk : String) : String × String :=
  match searchHeader code_chunk.data with
  | none => ("", "")
  | some id_and_size =>
    (String.mk (replaceAllL code_chunk.data id_and_size []), String.mk id_and_size)

/-- The fixed blocklist of identifiers suppressed by
`cleanup_extracted_code` (parsing_utils.py lines 111-114). -/
def omitted_chunk_ids : List String :=
  ["d85626964c4991f63f841afe6a28564559f8c4e5",
   "18d8b80f6f1e1d497d2356f1018756a0f6888320",
   "54e8c1952323686e1779c21fcbfd4c857add857e",
   "3bdb277771a4c7ed55385846bc133b0768a17bba",
   "21b296cde51a9f8d6667f6fd5a81e9125a59316e",
   "639acd34b2ae7cf9dbf93cb6c9a22552d4202a37",
   "051a03a391f81f5eb0fe3dfc1f7d39ca96a499f6",
   "c9a5a8ef568b6c867f1e84d84fcc1a6463a77637"]

/-- Embedding of `cleanup_extracted_code` (parsing_utils.py lines 100-119):
blocklisted identifiers map to the empty snippet; otherwise doubled quotes
are collapsed and merge conflicts removed. -/
def cleanup_extracted_code (extracted_code : String) (chunk_id : String) : String :=
  if chunk_id ∈ omitted_chunk_ids then ""
  else remove_merge_conflicts (String.mk (replaceAllL extracted_code.data ['"', '"'] ['"']))

/-- The three structural counters of the metadata pipeline. -/
structure OccCounts where
  calls : Nat
  assignments : Nat
  attributes : Nat
deriving DecidableEq, Repr

mutual

/-- Embedding of `find_occurences` (metadata_parser.py lines 25-51): counts
call, assignment and attribute nodes and recurses into every AST child (the
`_fields` traversal).  The Python `except RecursionError` clause concerns
native stack exhaustion, which has no counterpart in the total embedding. -/
def find_occurences : PyAST → OccCounts → OccCounts
  | PyAST.Call f args, counts =>
      find_occurences_list args (find_occurences f { counts with calls := counts.calls + 1 })
  | PyAST.Assign targets value, counts =>
      find_occurences value
        (find_occurences_list targets { counts with assignments := counts.assignments + 1 })
  | PyAST.Attribute v _, counts =>
      find_occurences v { counts with attributes := counts.attributes + 1 }
  | PyAST.Name _, counts => counts
  | PyAST.Module body, counts => find_occurences_list body counts
  | PyAST.ExprStmt v, counts => find_occurences v counts
  | PyAST.BinOp l r, counts => find_occurences r (find_occurences l counts)
  | PyAST.Constant, counts => counts
  | PyAST.PyImport _, counts => counts
  | PyAST.PyImportFrom _ _, counts => counts

/-- Left-to-right traversal of a list-valued AST field by
`find_occurences`. -/
def find_occurences_list : List PyAST → OccCounts → OccCounts
  | [], counts => counts
  | n :: rest, counts => find_occurences_list rest (find_occurences n counts)

end

/-- The metadata record produced by `process_chunk` for a processed record
(the Python dict with keys chunk_id, calls, assignments, attributes, size,
is_ipynb; the specification calls the last field the notebook flag,
is_notebook). -/
structure MetadataRecord where
  chunk_id : String
  calls : Nat
  assignments : Nat
  attributes : Nat
  size : Nat
  is_ipynb : Bool
deriving DecidableEq, Repr

/-- Embedding of `process_chunk` (metadata_parser.py lines 53-80).  The
external `ast.parse` is the parameter `parser` and the external notebook
cell extraction (`parse_notebook`, a JSON traversal) is the parameter
`notebook_extract`.  An empty extracted code — no header match, or a chunk
equal to its own header — yields the empty dict, modelled as `none`. -/
def process_chunk (parser : String → Except PyParseError (List PyAST))
    (notebook_extract : String → String) (code_chunk : String) : Option MetadataRecord :=
  match extract_code code_chunk with
  | (extracted_code, id_and_size) =>
    if extracted_code = "" then none
    else
      let chunk_id := String.mk (id_and_size.data.takeWhile (fun c => c != ','))
      let cleaned_code := cleanup_extracted_code extracted_code chunk_id
      let is_jupyter := is_ipynb cleaned_code
      let cleaned_code := if is_jupyter then notebook_extract cleaned_code else cleaned_code
      let code_tree := parse_to_ast parser cleaned_code
      let counts := find_occurences code_tree ⟨0, 0, 0⟩
      some ⟨chunk_id, counts.calls, counts.assignments, counts.attributes,
        cleaned_code.length, is_jupyter⟩

/-- A `String.mk` is empty exactly when its character list is. -/
theorem stringMk_eq_empty_iff (l : List Char) : String.mk l = "" ↔ l = [] := by
  constructor
  · intro h
    have := congrArg String.data h
    simpa using this
  · intro h
    subst h
    rfl

/-- Rebuilding a string from its own characters is the identity. -/
theorem stringMk_data (s : String) : String.mk s.data = s := rfl

/-- C4 (amended): a record is processed — `process_chunk` yields a metadata
record — exactly when the chunk contains a match of the source's header
pattern `[a-z0-9]{40},\d+,"` (forty lowercase alphanumeric characters, not
only hexadecimal ones) and removing every occurrence of the matched header
leaves a non-empty remainder. -/
theorem process_chunk_processed_iff
    (parser : String → Except PyParseError (List PyAST))
    (notebook_extract : String → String) (chunk : String) :
    (process_chunk parser notebook_extract chunk).isSome = true
      ↔ ∃ m, searchHeader chunk.data = some m ∧ replaceAllL chunk.data m [] ≠ [] := by
  cases hs : searchHeader chunk.data with
  | none =>
    simp only [process_chunk, extract_code, hs]
    simp
  | some m =>
    simp only [process_chunk, extract_code, hs, Option.some.injEq]
    constructor
    · intro hI
      refine ⟨m, rfl, fun hr => ?_⟩
      rw [hr] at hI
      simp [stringMk_eq_empty_iff] at hI
    · rintro ⟨m', hm', hr⟩
      subst hm'
      have hne : ¬(String.mk (replaceAllL chunk.data m []) = "") := by
        rw [stringMk_eq_empty_iff]
        exact hr
      simp [hne]

/-- A 40-character identifier drawn from the lowercase alphabet but outside
the hexadecimal range accepted by the specification. -/
def nonHexId : String := String.mk (List.replicate 40 'z')

/-- C4 counterexample: the record `zzz…z,1,"x` (forty `z` characters, which
are lowercase alphanumeric but not hexadecimal) is processed by
`process_chunk`, although it contains no header with a 40-character
lowercase hexadecimal identifier, which by the claim should make the record
invalid with no output. -/
theorem non_hex_header_is_processed :
    (process_chunk (fun _ => Except.error PyParseError.syntaxError) (fun s => s)
        (nonHexId ++ ",1,\"x")).isSome = true
    ∧ searchHeaderHex (nonHexId ++ ",1,\"x").data = none := by
  constructor
  · decide
  · decide

/-- Taking exactly the length of a prefix whose characters all satisfy the
predicate splits off that prefix. -/
theorem takeExact_append (p : Char → Bool) :
    ∀ (idc rest : List Char), (∀ c ∈ idc, p c = true) →
      takeExact idc.length p (idc ++ rest) = some (idc, rest) := by
  intro idc
  induction idc with
  | nil => intro rest _; rfl
  | cons c t ih =>
    intro rest h
    have hc : p c = true := h c (List.mem_cons_self _ _)
    simp only [List.length_cons, List.cons_append, takeExact, hc, if_true,
      List.append_eq]
    rw [ih rest (fun c' hc' => h c' (List.mem_cons_of_mem _ hc'))]

/-- The maximal digit run of a digit prefix followed by a non-digit is that
prefix. -/
theorem takeDigits_append :
    ∀ (ds : List Char) (c : Char) (rest : List Char),
      (∀ d ∈ ds, isDigitC d = true) → isDigitC c = false →
      takeDigits (ds ++ c :: rest) = (ds, c :: rest) := by
  intro ds
  induction ds with
  | nil =>
    intro c rest _ hc
    simp [takeDigits, hc]
  | cons d dt ih =>
    intro c rest h hc
    have hd : isDigitC d = true := h d (List.mem_cons_self _ _)
    simp only [List.cons_append, takeDigits, hd, if_true, List.append_eq]
    rw [ih c rest (fun d' hd' => h d' (List.mem_cons_of_mem _ hd')) hc]

/-- The header matcher succeeds at the start of text shaped
`identifier ++ "," ++ digits ++ ",\"" ++ tail`. -/
theorem headerMatchAt_of_shape (idp : Char → Bool) (idc ds tail : List Char)
    (hlen : idc.length = 40) (hid : ∀ c ∈ idc, idp c = true)
    (hds : ds ≠ []) (hdig : ∀ d ∈ ds, isDigitC d = true) :
    headerMatchAt idp (idc ++ ',' :: (ds ++ ',' :: '"' :: tail))
      = some (idc ++ ',' :: ds ++ [',', '"']) := by
  have h1 : takeExact 40 idp (idc ++ (',' :: (ds ++ ',' :: '"' :: tail)))
      = some (idc, ',' :: (ds ++ ',' :: '"' :: tail)) := by
    rw [← hlen]
    exact takeExact_append idp idc _ hid
  have h2 : takeDigits (ds ++ ',' :: '"' :: tail) = (ds, ',' :: '"' :: tail) :=
    takeDigits_append ds ',' ('"' :: tail) hdig (by decide)
  cases ds with
  | nil => exact absurd rfl hds
  | cons d dt =>
    simp only [headerMatchAt, h1, h2]

/-- A successful header match at the start of the text is what the leftmost
search returns. -/
theorem searchHeaderWith_of_headerMatchAt (idp : Char → Bool)
    (text m : List Char) (h : headerMatchAt idp text = some m) :
    searchHeaderWith idp text = some m := by
  cases text with
  | nil => simp [headerMatchAt, takeExact] at h
  | cons c t => simp [searchHeaderWith, h]

/-- Characters of a matching pattern occur in the matched text. -/
theorem startsWithChars_mem :
    ∀ (pat t : List Char), startsWithChars pat t = true → ∀ c ∈ pat, c ∈ t := by
  intro pat
  induction pat with
  | nil => intro t _ c hc; simp at hc
  | cons p ps ih =>
    intro t h c hc
    cases t with
    | nil => simp [startsWithChars] at h
    | cons x xs =>
      simp only [startsWithChars, Bool.and_eq_true, beq_iff_eq] at h
      obtain ⟨rfl, h2⟩ := h
      rcases List.mem_cons.mp hc with rfl | hc
      · exact List.mem_cons_self _ _
      · exact List.mem_cons_of_mem _ (ih xs h2 c hc)

/-- Every list is a prefix of itself followed by anything. -/
theorem startsWithChars_self_append :
    ∀ (l r : List Char), startsWithChars l (l ++ r) = true := by
  intro l
  induction l with
  | nil => intro r; rfl
  | cons c t ih => intro r; simp [startsWithChars, ih r]

/-- Text containing no character of the pattern is left unchanged by the
replacement scanner, for any sufficient amount of fuel. -/
theorem replaceAllGo_no_occurrence (p : Char) (ps repl : List Char) (c₀ : Char)
    (hp : c₀ ∈ p :: ps) :
    ∀ (text : List Char) (fuel : Nat), text.length ≤ fuel → c₀ ∉ text →
      replaceAllGo p ps repl fuel text = text := by
  intro text
  induction text with
  | nil => intro fuel _ _; cases fuel <;> rfl
  | cons c t ih =>
    intro fuel hf h
    cases fuel with
    | zero => simp at hf
    | succ f =>
      have hsw : startsWithChars (p :: ps) (c :: t) = false := by
        cases hq : startsWithChars (p :: ps) (c :: t) with
        | false => rfl
        | true => exact absurd (startsWithChars_mem _ _ hq c₀ hp) h
      simp only [replaceAllGo, hsw, Bool.false_eq_true, if_false]
      have hf' : t.length ≤ f := by
        simp only [List.length_cons] at hf
        omega
      rw [ih f hf' (fun hc => h (List.mem_cons_of_mem _ hc))]

/-- Replacing a non-empty header by nothing in `header ++ code` yields
`code`, provided some character of the header does not occur in `code`. -/
theorem replaceAllL_header (m code : List Char) (c₀ : Char)
    (h₀ : c₀ ∈ m) (hc : c₀ ∉ code) :
    replaceAllL (m ++ code) m [] = code := by
  cases m with
  | nil => simp at h₀
  | cons p ps =>
    have hsw : startsWithChars (p :: ps) (p :: (ps ++ code)) = true := by
      have := startsWithChars_self_append (p :: ps) code
      simpa using this
    simp only [replaceAllL, List.cons_append, List.length_cons, List.append_eq,
      replaceAllGo, hsw, if_true, List.nil_append]
    rw [List.drop_left]
    exact replaceAllGo_no_occurrence p ps [] c₀ h₀ code ((ps ++ code).length)
      (le_trans (Nat.le_add_left code.length ps.length)
        (le_of_eq (List.length_append ps code).symm)) hc

/-- `takeWhile` over a satisfying prefix followed by a failing character
yields the prefix. -/
theorem takeWhile_append_stop (p : Char → Bool) :
    ∀ (l : List Char) (c : Char) (r : List Char),
      (∀ x ∈ l, p x = true) → p c = false →
      (l ++ c :: r).takeWhile p = l := by
  intro l
  induction l with
  | nil => intro c r _ hc; simp [List.takeWhile_cons, hc]
  | cons x xs ih =>
    intro c r h hc
    have hx : p x = true := h x (List.mem_cons_self _ _)
    simp only [List.cons_append, List.takeWhile_cons, hx, if_true]
    rw [ih c r (fun x' hx' => h x' (List.mem_cons_of_mem _ hx')) hc]

/-- The snippet text of the C7 scenario. -/
def snippet7 : String := "a = 1 + 2; b = a * 3; c = b.attr; d = e.func()"

/-- The CPython syntax tree body of `snippet7`: four assignments, of which
the third assigns an attribute access and the fourth a call of an
attribute. -/
def body7 : List PyAST :=
  [PyAST.Assign [PyAST.Name "a"] (PyAST.BinOp PyAST.Constant PyAST.Constant),
   PyAST.Assign [PyAST.Name "b"] (PyAST.BinOp (PyAST.Name "a") PyAST.Constant),
   PyAST.Assign [PyAST.Name "c"] (PyAST.Attribute (PyAST.Name "b") "attr"),
   PyAST.Assign [PyAST.Name "d"]
     (PyAST.Call (PyAST.Attribute (PyAST.Name "e") "func") [])]

/-- C7: for every record built from a valid non-blocklisted 40-character
identifier, declared size 38, and the scenario snippet, `process_chunk`
returns exactly the record with 1 call, 4 assignments, 2 attribute accesses,
actual size 46 and a cleared notebook flag (the Python dict key is
`is_ipynb`; the specification names the field `is_notebook`). -/
theorem process_chunk_scenario (idS : String)
    (parser : String → Except PyParseError (List PyAST))
    (notebook_extract : String → String)
    (hlen : idS.length = 40)
    (hid : ∀ c ∈ idS.data, isLowerAlnum c = true)
    (hnb : idS ∉ omitted_chunk_ids)
    (hp : parser snippet7 = Except.ok body7) :
    process_chunk parser notebook_extract (idS ++ ",38,\"" ++ snippet7)
      = some ⟨idS, 1, 4, 2, 46, false⟩ := by
  have hdata : (idS ++ ",38,\"" ++ snippet7).data
      = idS.data ++ ',' :: (['3', '8'] ++ ',' :: '"' :: snippet7.data) := by
    rw [String.data_append, String.data_append,
      show (",38,\"" : String).data = [',', '3', '8', ',', '"'] from rfl]
    simp
  have hquote_not : '"' ∉ snippet7.data := by decide
  have hsearch : searchHeader (idS ++ ",38,\"" ++ snippet7).data
      = some (idS.data ++ [',', '3', '8', ',', '"']) := by
    rw [hdata]
    have h := searchHeaderWith_of_headerMatchAt isLowerAlnum _ _
      (headerMatchAt_of_shape isLowerAlnum idS.data ['3', '8'] snippet7.data
        hlen hid (by simp) (by decide))
    simpa using h
  have hm : (idS ++ ",38,\"" ++ snippet7).data
      = (idS.data ++ [',', '3', '8', ',', '"']) ++ snippet7.data := by
    rw [hdata]
    try simp
  have hrepl : replaceAllL (idS ++ ",38,\"" ++ snippet7).data
      (idS.data ++ [',', '3', '8', ',', '"']) [] = snippet7.data := by
    rw [hm]
    exact replaceAllL_header _ _ '"' (by simp) hquote_not
  have hext : extract_code (idS ++ ",38,\"" ++ snippet7)
      = (snippet7, String.mk (idS.data ++ [',', '3', '8', ',', '"'])) := by
    simp only [extract_code, hsearch, hrepl]
  have hidne : ∀ x ∈ idS.data, (x != ',') = true := by
    intro x hx
    rw [bne_iff_ne]
    intro he
    exact absurd (he ▸ hid x hx) (by decide)
  have htake : String.mk
      ((String.mk (idS.data ++ [',', '3', '8', ',', '"'])).data.takeWhile
        (fun c => c != ',')) = idS := by
    have h1 : (idS.data ++ [',', '3', '8', ',', '"']).takeWhile (fun c => c != ',')
        = idS.data :=
      takeWhile_append_stop (fun c => c != ',') idS.data ','
        ['3', '8', ',', '"'] hidne (by decide)
    rw [show (String.mk (idS.data ++ [',', '3', '8', ',', '"'])).data
        = idS.data ++ [',', '3', '8', ',', '"'] from rfl, h1]
  have hclean : cleanup_extracted_code snippet7 idS = snippet7 := by
    simp only [cleanup_extracted_code, if_neg hnb]
    have h1 : replaceAllL snippet7.data ['"', '"'] ['"'] = snippet7.data := by
      simp only [replaceAllL]
      exact replaceAllGo_no_occurrence '"' ['"'] ['"'] '"' (by simp)
        snippet7.data snippet7.data.length (le_refl _) hquote_not
    rw [h1]
    decide
  have hipynb : is_ipynb snippet7 = false := by decide
  simp only [process_chunk, hext]
  rw [if_neg (show ¬(snippet7 = "") from by decide)]
  simp only [htake, hclean, hipynb, Bool.false_eq_true, if_false,
    parse_to_ast, hp]
  rfl

/-- Witness for C7 at the identifier of the repository's own test. -/
theorem process_chunk_scenario_witness :
    ("ktu8qfsr2gv4myex6canjhblpz3dwoi75esatarm".length = 40
      ∧ (∀ c ∈ "ktu8qfsr2gv4myex6canjhblpz3dwoi75esatarm".data, isLowerAlnum c = true)
      ∧ "ktu8qfsr2gv4myex6canjhblpz3dwoi75esatarm" ∉ omitted_chunk_ids)
    ∧ process_chunk (fun _ => Except.ok body7) (fun s => s)
        ("ktu8qfsr2gv4myex6canjhblpz3dwoi75esatarm" ++ ",38,\"" ++ snippet7)
      = some ⟨"ktu8qfsr2gv4myex6canjhblpz3dwoi75esatarm", 1, 4, 2, 46, false⟩ :=
  ⟨⟨by decide, by decide, by decide⟩,
   process_chunk_scenario _ _ _ (by decide) (by decide) (by decide) rfl⟩

/-- Lookup in an insertion-ordered association list (a Python dict read
`d[k]` / `k in d`). -/
def lookupA {κ α : Type} [DecidableEq κ] : List (κ × α) → κ → Option α
  | [], _ => none
  | (k, v) :: rest, key => if k = key then some v else lookupA rest key

/-- Assignment `d[k] = v` on an insertion-ordered association list: replaces
in place when the key exists, appends at the end otherwise (Python dict
update semantics). -/
def dictSet {κ α : Type} [DecidableEq κ] : List (κ × α) → κ → α → List (κ × α)
  | [], k, v => [(k, v)]
  | (k', v') :: rest, k, v =>
    if k' = k then (k, v) :: rest else (k', v') :: dictSet rest k v

/-- The `defaultdict(list)` append `d[k].append(v)`: appends to the entry of
`k`, creating it at the end when missing. -/
def dictAppend {κ : Type} [DecidableEq κ] :
    List (κ × List String) → κ → String → List (κ × List String)
  | [], k, v => [(k, [v])]
  | (k', vs) :: rest, k, v =>
    if k' = k then (k', vs ++ [v]) :: rest else (k', vs) :: dictAppend rest k v

/-- The in-place append `imports[module][1].append(name)` of
`extract_imports`: appends a direct-import name to the list of an existing
entry (the caller guarantees the key is present). -/
def appendDirect : List (String × (String × List String)) → String → String
    → List (String × (String × List String))
  | [], _, _ => []
  | (k, (a, ds)) :: rest, key, nm =>
    if k = key then (k, (a, ds ++ [nm])) :: rest
    else (k, (a, ds)) :: appendDirect rest key nm

/-- Embedding of `extract_imports` (std_library_parser.py lines 22-57):
scans the top-level statements; a plain import binds each imported module
name to its alias (or itself) with an empty direct-import list, overwriting
any previous binding; a from-import creates the module's entry when missing
and appends each imported name (or its alias) to the module's
direct-import list.  Parse failures yield the empty table.  Relative
from-imports (`node.module` being None) lie outside the embedded fragment;
`PyImportFrom` carries the module name of an absolute from-import. -/
def extract_imports (parser : String → Except PyParseError (List PyAST))
    (contents : String) : List (String × (String × List String)) :=
  match parser contents with
  | Except.error _ => []
  | Except.ok body =>
    body.foldl (fun imports node =>
      match node with
      | PyAST.PyImport names =>
        names.foldl (fun imps al => dictSet imps al.1 (al.2.getD al.1, [])) imports
      | PyAST.PyImportFrom module names =>
        let imps :=
          match lookupA imports module with
          | none => dictSet imports module (module, [])
          | some _ => imports
        names.foldl (fun imps2 al => appendDirect imps2 module (al.2.getD al.1)) imps
      | _ => imports) []

/-- The name-restricted from-import filter of `get_components_to_search`
(std_library_parser.py lines 80-83): for each direct-imported name, every
component-type bucket containing that name receives it under the
`from_import_` prefixed bucket of a fresh `defaultdict(list)`. -/
def explicitFilter (directs : List String)
    (std_lib_components : List (String × List String)) : List (String × List String) :=
  directs.foldl (fun d direct_import =>
    std_lib_components.foldl (fun d2 comp =>
      if direct_import ∈ comp.2 then
        dictAppend d2 ("from_import_" ++ comp.1) direct_import
      else d2) d) []

/-- One iteration of the library loop of `get_components_to_search`
(std_library_parser.py lines 72-85): an imported dictionary library with no
direct imports exposes all its components; with a wildcard among the direct
imports, all components under `from_import_` keys; otherwise only the
name-restricted filter.  The entry is stored under the (library, alias)
pair. -/
def resolveLibrary (code_chunk_imports : List (String × (String × List String)))
    (filtered : List ((String × String) × List (String × List String)))
    (entry : String × List (String × List String)) :
    List ((String × String) × List (String × List String)) :=
  match lookupA code_chunk_imports entry.1 with
  | none => filtered
  | some (std_library_alias_name, directs) =>
    if directs.isEmpty then
      dictSet filtered (entry.1, std_library_alias_name) entry.2
    else if "*" ∈ directs then
      dictSet filtered (entry.1, std_library_alias_name)
        (entry.2.map (fun q => ("from_import_" ++ q.1, q.2)))
    else
      dictSet filtered (entry.1, std_library_alias_name)
        (explicitFilter directs entry.2)

/-- Embedding of `get_components_to_search` (std_library_parser.py
lines 60-86). -/
def get_components_to_search
    (code_chunk_imports : List (String × (String × List String)))
    (standard_library_dict : List (String × List (String × List String))) :
    List ((String × String) × List (String × List String)) :=
  standard_library_dict.foldl (resolveLibrary code_chunk_imports) []

/-- Setting a key makes it readable. -/
theorem lookupA_dictSet_self {κ α : Type} [DecidableEq κ]
    (d : List (κ × α)) (k : κ) (v : α) :
    lookupA (dictSet d k v) k = some v := by
  induction d with
  | nil => simp [dictSet, lookupA]
  | cons p rest ih =>
    obtain ⟨k', v'⟩ := p
    by_cases h : k' = k
    · simp [dictSet, h, lookupA]
    · simp [dictSet, h, lookupA, ih]

/-- Setting one key leaves the others unchanged. -/
theorem lookupA_dictSet_other {κ α : Type} [DecidableEq κ]
    (d : List (κ × α)) (k key : κ) (v : α) (h : key ≠ k) :
    lookupA (dictSet d k v) key = lookupA d key := by
  induction d with
  | nil =>
    simp only [dictSet, lookupA]
    rw [if_neg (fun he : k = key => h he.symm)]
  | cons p rest ih =>
    obtain ⟨k', v'⟩ := p
    by_cases hk : k' = k
    · simp only [dictSet, if_pos hk, lookupA]
      have h1 : ¬(k = key) := fun he => h he.symm
      have h2 : ¬(k' = key) := fun he => h (he ▸ hk)
      rw [if_neg h1, if_neg h2]
    · simp only [dictSet, if_neg hk, lookupA]
      by_cases hkey : k' = key
      · rw [if_pos hkey, if_pos hkey]
      · rw [if_neg hkey, if_neg hkey, ih]

/-- Processing a library different from `lib` does not change the entry
stored for `(lib, aliasName)`. -/
theorem resolveLibrary_preserves
    (imports : List (String × (String × List String)))
    (filtered : List ((String × String) × List (String × List String)))
    (entry : String × List (String × List String))
    (lib aliasName : String) (hne : entry.1 ≠ lib) :
    lookupA (resolveLibrary imports filtered entry) (lib, aliasName)
      = lookupA filtered (lib, aliasName) := by
  unfold resolveLibrary
  cases h : lookupA imports entry.1 with
  | none => rfl
  | some pr =>
    obtain ⟨a, ds⟩ := pr
    have hkey : ((lib, aliasName) : String × String) ≠ (entry.1, a) := by
      intro he
      exact hne (congrArg Prod.fst he).symm
    by_cases h1 : ds.isEmpty
    · simp only [h1, if_true]
      exact lookupA_dictSet_other _ _ _ _ hkey
    · by_cases h2 : "*" ∈ ds
      · simp only [h1, h2, Bool.false_eq_true, if_false, if_pos h2]
        exact lookupA_dictSet_other _ _ _ _ hkey
      · simp only [h1, h2, Bool.false_eq_true, if_false]
        exact lookupA_dictSet_other _ _ _ _ hkey

/-- Folding over libraries none of which is `lib` preserves the entry for
`(lib, aliasName)`. -/
theorem foldl_resolveLibrary_preserves
    (imports : List (String × (String × List String)))
    (dict : List (String × List (String × List String)))
    (lib aliasName : String) (hall : ∀ e ∈ dict, e.1 ≠ lib) :
    ∀ filtered,
      lookupA (dict.foldl (resolveLibrary imports) filtered) (lib, aliasName)
        = lookupA filtered (lib, aliasName) := by
  induction dict with
  | nil => intro filtered; rfl
  | cons e rest ih =>
    intro filtered
    rw [List.foldl_cons,
      ih (fun e' he' => hall e' (List.mem_cons_of_mem _ he')),
      resolveLibrary_preserves imports filtered e lib aliasName
        (hall e (List.mem_cons_self _ _))]

/-- The value stored by `get_components_to_search` for an imported
dictionary library: all components for a plain import, the `from_import_`
relabelling of all components for a wildcard from-import, and the
name-restricted filter otherwise. -/
theorem gcts_lookup
    (imports : List (String × (String × List String)))
    (dict : List (String × List (String × List String)))
    (lib aliasName : String) (directs : List String)
    (comps : List (String × List String))
    (hnd : (dict.map Prod.fst).Nodup)
    (hmem : (lib, comps) ∈ dict)
    (hlook : lookupA imports lib = some (aliasName, directs)) :
    lookupA (get_components_to_search imports dict) (lib, aliasName)
      = some (if directs.isEmpty then comps
              else if "*" ∈ directs then
                comps.map (fun q => ("from_import_" ++ q.1, q.2))
              else explicitFilter directs comps) := by
  suffices h : ∀ filtered,
      lookupA (dict.foldl (resolveLibrary imports) filtered) (lib, aliasName)
        = some (if directs.isEmpty then comps
                else if "*" ∈ directs then
                  comps.map (fun q => ("from_import_" ++ q.1, q.2))
                else explicitFilter directs comps) by
    exact h []
  induction dict with
  | nil => exact absurd hmem (List.not_mem_nil _)
  | cons e rest ih =>
    intro filtered
    rcases List.mem_cons.mp hmem with he | hmem'
    · have hrest : ∀ e' ∈ rest, e'.1 ≠ lib := by
        intro e' he' hlib
        rw [List.map_cons, List.nodup_cons] at hnd
        apply hnd.1
        have h1 : e'.1 ∈ List.map Prod.fst rest := List.mem_map_of_mem Prod.fst he'
        have h2 : e.1 = e'.1 := by
          rw [← he]
          exact hlib.symm
        rw [h2]
        exact h1
      rw [List.foldl_cons, foldl_resolveLibrary_preserves imports rest lib aliasName hrest]
      rw [← he]
      unfold resolveLibrary
      simp only [hlook]
      by_cases h1 : directs.isEmpty
      · simp only [h1, if_true]
        exact lookupA_dictSet_self _ _ _
      · by_cases h2 : "*" ∈ directs
        · simp only [h1, h2, Bool.false_eq_true, if_false, if_pos h2, if_true]
          exact lookupA_dictSet_self _ _ _
        · simp only [h1, h2, Bool.false_eq_true, if_false]
          exact lookupA_dictSet_self _ _ _
    · have hne : e.1 ≠ lib := by
        intro hlib
        rw [List.map_cons, List.nodup_cons] at hnd
        apply hnd.1
        have h1 : lib ∈ List.map Prod.fst rest := by
          have := List.mem_map_of_mem Prod.fst hmem'
          simpa using this
        rw [hlib]
        exact h1
      rw [List.foldl_cons]
      exact ih (by
        rw [List.map_cons, List.nodup_cons] at hnd
        exact hnd.2) hmem' _

/-- Membership of a name in a bucket of a component dictionary. -/
def dmem (d : List (String × List String)) (k n : String) : Prop :=
  ∃ vs, lookupA d k = some vs ∧ n ∈ vs

/-- Membership of a name in a bucket of an optional component dictionary. -/
def bucketMem (od : Option (List (String × List String))) (k n : String) : Prop :=
  match od with
  | none => False
  | some d => dmem d k n

/-- Reading the appended key returns the old bucket (empty when absent)
with the value appended. -/
theorem lookupA_dictAppend_self (d : List (String × List String)) (k v : String) :
    lookupA (dictAppend d k v) k = some ((lookupA d k).getD [] ++ [v]) := by
  induction d with
  | nil => simp [dictAppend, lookupA]
  | cons p rest ih =>
    obtain ⟨k₀, vs⟩ := p
    by_cases h : k₀ = k
    · simp [dictAppend, if_pos h, lookupA, h]
    · simp [dictAppend, if_neg h, lookupA, h, ih]

/-- Appending to one key leaves the other buckets unchanged. -/
theorem lookupA_dictAppend_other (d : List (String × List String))
    (k key v : String) (h : key ≠ k) :
    lookupA (dictAppend d k v) key = lookupA d key := by
  induction d with
  | nil =>
    simp only [dictAppend, lookupA]
    rw [if_neg (fun he : k = key => h he.symm)]
  | cons p rest ih =>
    obtain ⟨k₀, vs⟩ := p
    by_cases hk : k₀ = k
    · simp only [dictAppend, if_pos hk, lookupA]
      have h2 : ¬(k₀ = key) := fun he => h (he ▸ hk)
      rw [if_neg h2, if_neg h2]
    · simp only [dictAppend, if_neg hk, lookupA]
      by_cases hkey : k₀ = key
      · rw [if_pos hkey, if_pos hkey]
      · rw [if_neg hkey, if_neg hkey, ih]

/-- Bucket membership after a `defaultdict` append. -/
theorem dmem_dictAppend (d : List (String × List String)) (k key v n : String) :
    dmem (dictAppend d k v) key n ↔ (key = k ∧ n = v) ∨ dmem d key n := by
  by_cases hkey : key = k
  · subst hkey
    have hself := lookupA_dictAppend_self d key v
    cases hq : lookupA d key with
    | none =>
      rw [hq] at hself
      simp [dmem, hself, hq]
    | some vs₀ =>
      rw [hq] at hself
      simp only [Option.getD_some] at hself
      simp [dmem, hself, hq, List.mem_append]
      tauto
  · have hlk := lookupA_dictAppend_other d k key v hkey
    simp [dmem, hlk, hkey]

/-- Bucket membership after the inner component loop of the name-restricted
filter. -/
theorem dmem_innerFold (comps : List (String × List String))
    (di key n : String) :
    ∀ d, dmem (comps.foldl (fun d2 comp =>
        if di ∈ comp.2 then dictAppend d2 ("from_import_" ++ comp.1) di
        else d2) d) key n
      ↔ dmem d key n
        ∨ (n = di ∧ ∃ ct names, (ct, names) ∈ comps ∧ di ∈ names
            ∧ key = "from_import_" ++ ct) := by
  induction comps with
  | nil =>
    intro d
    simp
  | cons comp rest ih =>
    intro d
    obtain ⟨ct₀, names₀⟩ := comp
    by_cases h : di ∈ names₀
    · rw [List.foldl_cons]
      simp only [if_pos h]
      rw [ih (dictAppend d ("from_import_" ++ ct₀) di)]
      rw [dmem_dictAppend]
      constructor
      · rintro ((⟨hk, hn⟩ | hd) | ⟨hn, ct, names, hm, hdi, hk⟩)
        · exact Or.inr ⟨hn, ct₀, names₀, List.mem_cons_self _ _, h, hk⟩
        · exact Or.inl hd
        · exact Or.inr ⟨hn, ct, names, List.mem_cons_of_mem _ hm, hdi, hk⟩
      · rintro (hd | ⟨hn, ct, names, hm, hdi, hk⟩)
        · exact Or.inl (Or.inr hd)
        · rcases List.mem_cons.mp hm with he | hm'
          · injection he with he1 he2
            exact Or.inl (Or.inl ⟨by rw [hk, he1], hn⟩)
          · exact Or.inr ⟨hn, ct, names, hm', hdi, hk⟩
    · rw [List.foldl_cons]
      simp only [if_neg h]
      rw [ih d]
      constructor
      · rintro (hd | ⟨hn, ct, names, hm, hdi, hk⟩)
        · exact Or.inl hd
        · exact Or.inr ⟨hn, ct, names, List.mem_cons_of_mem _ hm, hdi, hk⟩
      · rintro (hd | ⟨hn, ct, names, hm, hdi, hk⟩)
        · exact Or.inl hd
        · rcases List.mem_cons.mp hm with he | hm'
          · injection he with he1 he2
            exact absurd (he2 ▸ hdi) h
          · exact Or.inr ⟨hn, ct, names, hm', hdi, hk⟩

/-- Bucket membership after the outer direct-import loop of the
name-restricted filter. -/
theorem dmem_outerFold (comps : List (String × List String))
    (directs : List String) (key n : String) :
    ∀ d, dmem (directs.foldl (fun dAcc di =>
        comps.foldl (fun d2 comp =>
          if di ∈ comp.2 then dictAppend d2 ("from_import_" ++ comp.1) di
          else d2) dAcc) d) key n
      ↔ dmem d key n
        ∨ (∃ di ∈ directs, n = di ∧ ∃ ct names, (ct, names) ∈ comps
            ∧ di ∈ names ∧ key = "from_import_" ++ ct) := by
  induction directs with
  | nil =>
    intro d
    simp
  | cons di rest ih =>
    intro d
    rw [List.foldl_cons, ih, dmem_innerFold]
    constructor
    · rintro ((hd | ⟨hn, ct, names, hm, hdi, hk⟩) | ⟨di', hdi', hn, hrest⟩)
      · exact Or.inl hd
      · exact Or.inr ⟨di, List.mem_cons_self _ _, hn, ct, names, hm, hdi, hk⟩
      · exact Or.inr ⟨di', List.mem_cons_of_mem _ hdi', hn, hrest⟩
    · rintro (hd | ⟨di', hdi', hn, hrest⟩)
      · exact Or.inl (Or.inl hd)
      · rcases List.mem_cons.mp hdi' with rfl | hdi''
        · exact Or.inl (Or.inr ⟨hn, hrest⟩)
        · exact Or.inr ⟨di', hdi'', hn, hrest⟩

/-- Appending to the same string on the left is injective. -/
theorem string_append_left_cancel (s a b : String) (h : s ++ a = s ++ b) :
    a = b := by
  have hd := congrArg String.data h
  rw [String.data_append, String.data_append] at hd
  exact String.ext (List.append_cancel_left hd)

/-- The name-restricted filter holds a name in the `from_import_` bucket of
a component type exactly when the name was direct-imported and belongs to
that component type's bucket of the library dictionary. -/
theorem dmem_explicitFilter (directs : List String)
    (comps : List (String × List String)) (ctype n : String) :
    dmem (explicitFilter directs comps) ("from_import_" ++ ctype) n
      ↔ n ∈ directs ∧ ∃ names, (ctype, names) ∈ comps ∧ n ∈ names := by
  rw [explicitFilter, dmem_outerFold]
  constructor
  · rintro (hd | ⟨di, hdi, rfl, ct, names, hm, hin, hk⟩)
    · exact absurd hd (by simp [dmem, lookupA])
    · obtain rfl : ctype = ct := string_append_left_cancel _ _ _ hk
      exact ⟨hdi, names, hm, hin⟩
  · rintro ⟨hdir, names, hm, hin⟩
    exact Or.inr ⟨n, hdir, rfl, ctype, names, hm, hin, rfl⟩

/-- C8: for every import table and library dictionary (with its libraries
uniquely named, as Python dict keys are), resolving an imported library
maps a wildcard from-import to all of the library's components tagged
`from_import_`, and a name-restricted from-import to exactly those
components whose name matches an imported name, and no others. -/
theorem get_components_wildcard_and_explicit
    (imports : List (String × (String × List String)))
    (dict : List (String × List (String × List String)))
    (lib aliasName : String) (directs : List String)
    (comps : List (String × List String))
    (hnd : (dict.map Prod.fst).Nodup)
    (hmem : (lib, comps) ∈ dict)
    (hlook : lookupA imports lib = some (aliasName, directs)) :
    ("*" ∈ directs →
      lookupA (get_components_to_search imports dict) (lib, aliasName)
        = some (comps.map (fun q => ("from_import_" ++ q.1, q.2))))
    ∧ (directs ≠ [] → "*" ∉ directs →
      ∀ ctype n,
        bucketMem (lookupA (get_components_to_search imports dict) (lib, aliasName))
            ("from_import_" ++ ctype) n
          ↔ n ∈ directs ∧ ∃ names, (ctype, names) ∈ comps ∧ n ∈ names) := by
  have h := gcts_lookup imports dict lib aliasName directs comps hnd hmem hlook
  constructor
  · intro hstar
    have hne : directs.isEmpty = false := by
      cases directs with
      | nil => exact absurd hstar (List.not_mem_nil _)
      | cons a l => rfl
    rw [h, hne]
    simp [hstar]
  · intro hne hstar ctype n
    have hne' : directs.isEmpty = false := by
      cases directs with
      | nil => exact absurd rfl hne
      | cons a l => rfl
    rw [h, hne']
    simp only [Bool.false_eq_true, if_false, if_neg hstar, bucketMem]
    exact dmem_explicitFilter directs comps ctype n

/-- Witness for C8: the library dictionary holding `os` with functions
`getcwd` and `system`, and an import table recording
`from os import getcwd`. -/
theorem get_components_wildcard_and_explicit_witness :
    (([("os", [("function", ["getcwd", "system"])])].map Prod.fst).Nodup
      ∧ ("os", [("function", ["getcwd", "system"])])
          ∈ [("os", [("function", ["getcwd", "system"])])]
      ∧ lookupA [("os", ("os", ["getcwd"]))] "os" = some ("os", ["getcwd"]))
    ∧ (("*" ∈ (["getcwd"] : List String) →
        lookupA (get_components_to_search [("os", ("os", ["getcwd"]))]
            [("os", [("function", ["getcwd", "system"])])]) ("os", "os")
          = some ([("function", ["getcwd", "system"])].map
              (fun q => ("from_import_" ++ q.1, q.2))))
      ∧ ((["getcwd"] : List String) ≠ [] → "*" ∉ (["getcwd"] : List String) →
        ∀ ctype n,
          bucketMem (lookupA (get_components_to_search [("os", ("os", ["getcwd"]))]
              [("os", [("function", ["getcwd", "system"])])]) ("os", "os"))
              ("from_import_" ++ ctype) n
            ↔ n ∈ (["getcwd"] : List String)
              ∧ ∃ names, (ctype, names) ∈ [("function", ["getcwd", "system"])]
                ∧ n ∈ names)) :=
  ⟨⟨by decide, by decide, rfl⟩,
   get_components_wildcard_and_explicit _ _ _ _ _ _ (by decide) (by decide) rfl⟩

/-- Drop `pat` from the front of `text` when it is a literal prefix. -/
def dropPrefixChars : List Char → List Char → Option (List Char)
  | [], t => some t
  | _ :: _, [] => none
  | p :: ps, c :: t => if p = c then dropPrefixChars ps t else none

/-- First alternative of `(n1|n2|…)` matching at the start of `text`, in
pattern order (regex alternation is ordered); component names contain no
regex metacharacters, so they match literally. -/
def firstAltMatch (names : List String) (text : List Char) : Option (String × List Char) :=
  match names with
  | [] => none
  | n :: rest =>
    match dropPrefixChars n.data text with
    | some r => some (n, r)
    | none => firstAltMatch rest text

/-- One attempted match of `alias\.(n1|n2|…)` at the start of `text`
(std_library_parser.py line 125; the alias of the embedded fragment contains
no regex metacharacters and matches literally). -/
def aliasDotMatchAt (aliasChars : List Char) (names : List String)
    (text : List Char) : Option (String × List Char) :=
  match dropPrefixChars (aliasChars ++ ['.']) text with
  | none => none
  | some rest => firstAltMatch names rest

/-- The `re.findall` scan for `alias\.(name)`: leftmost non-overlapping
matches, collecting the captured name.  Fuel is one unit per scanned
position; every match consumes at least the dot, so fuel equal to the text
length (as the wrapper passes) never runs out. -/
def findallAliasDotGo (aliasChars : List Char) (names : List String) :
    Nat → List Char → List String
  | _, [] => []
  | 0, _ => []
  | fuel + 1, c :: t =>
    match aliasDotMatchAt aliasChars names (c :: t) with
    | some (n, rest) => n :: findallAliasDotGo aliasChars names fuel rest
    | none => findallAliasDotGo aliasChars names fuel t

/-- `re.findall(r'alias\.(n1|n2|…)', text)`. -/
def findallAliasDot (aliasChars : List Char) (names : List String)
    (text : List Char) : List String :=
  findallAliasDotGo aliasChars names text.length text

/-- One attempted match of `\.(?:n1|n2|…)` at the start of `text`
(std_library_parser.py line 128). -/
def dotAltMatchAt (names : List String) (text : List Char) :
    Option (String × List Char) :=
  match text with
  | '.' :: rest => firstAltMatch names rest
  | _ => none

/-- The `re.findall` scan for `\.(?:n1|n2|…)`.  The source keeps the full
matches (including the dot) and strips the dot afterwards with `f[1:]`; the
embedding returns the stripped names directly. -/
def findallDotNameGo (names : List String) : Nat → List Char → List String
  | _, [] => []
  | 0, _ => []
  | fuel + 1, c :: t =>
    match dotAltMatchAt names (c :: t) with
    | some (n, rest) => n :: findallDotNameGo names fuel rest
    | none => findallDotNameGo names fuel t

/-- `[f[1:] for f in re.findall(r'\.(?:n1|n2|…)', text)]`. -/
def findallDotName (names : List String) (text : List Char) : List String :=
  findallDotNameGo names text.length text

/-- The regex word-character class `\w` on the ASCII dump text. -/
def wordChar (c : Char) : Bool :=
  ('a' ≤ c && c ≤ 'z') || ('A' ≤ c && c ≤ 'Z') || ('0' ≤ c && c ≤ '9') || c == '_'

/-- Word-character test of an optional character; positions outside the
text count as non-word for `\b`. -/
def isWordOpt : Option Char → Bool
  | none => false
  | some c => wordChar c

/-- First alternative of `(?:n1|n2|…)\b` matching at the start of `text`:
pattern order, with the trailing word-boundary check per alternative (regex
backtracking tries the next alternative when the boundary fails).  An empty
alternative never occurs in the source data and is skipped. -/
def wndAltMatch (names : List String) (text : List Char) :
    Option (String × List Char) :=
  match names with
  | [] => none
  | n :: rest =>
    match n.data with
    | [] => wndAltMatch rest text
    | _ :: _ =>
      match dropPrefixChars n.data text with
      | some r =>
        if isWordOpt n.data.getLast? != isWordOpt r.head? then some (n, r)
        else wndAltMatch rest text
      | none => wndAltMatch rest text

/-- One attempted match of `(?<!\.)\b(?:n1|n2|…)\b` at a position whose
preceding character is `prev`: the lookbehind forbids a dot before the
match, and the leading `\b` requires a word/non-word transition between
`prev` and the first text character. -/
def wndMatchAt (names : List String) (prev : Option Char) (text : List Char) :
    Option (String × List Char) :=
  match text with
  | [] => none
  | c :: _ =>
    if prev == some '.' then none
    else if isWordOpt prev == wordChar c then none
    else wndAltMatch names text

/-- The `re.findall` scan for `(?<!\.)\b(?:n1|n2|…)\b`
(std_library_parser.py line 131), tracking the previous character for the
lookbehind and the leading boundary. -/
def findallWNDGo (names : List String) : Option Char → Nat → List Char → List String
  | _, _, [] => []
  | _, 0, _ => []
  | prev, fuel + 1, c :: t =>
    match wndMatchAt names prev (c :: t) with
    | some (n, rest) => n :: findallWNDGo names n.data.getLast? fuel rest
    | none => findallWNDGo names (some c) fuel t

/-- `re.findall(r'(?<!\.)\b(?:n1|n2|…)\b', text)`. -/
def findallWordNoDot (names : List String) (text : List Char) : List String :=
  findallWNDGo names none text.length text

/-- Modelled from the spec: occurrences of `alias.name` counted only when
the alias is accessed as its own identifier — the character preceding the
alias, if any, is not a word character (the specification's "only when the
name is accessed via the module alias"). -/
def specAliasGo (aliasChars : List Char) (names : List String) :
    Option Char → Nat → List Char → List String
  | _, _, [] => []
  | _, 0, _ => []
  | prev, fuel + 1, c :: t =>
    match aliasDotMatchAt aliasChars names (c :: t) with
    | some (n, rest) =>
      if isWordOpt prev then specAliasGo aliasChars names (some c) fuel t
      else n :: specAliasGo aliasChars names n.data.getLast? fuel rest
    | none => specAliasGo aliasChars names (some c) fuel t

/-- Modelled from the spec: the matches of `alias.name` that are genuine
accesses through the module alias. -/
def specAliasAccessMatches (aliasChars : List Char) (names : List String)
    (text : List Char) : List String :=
  specAliasGo aliasChars names none text.length text

/-- The nested assignment `d[k1][k2] = v` on a `defaultdict(dict)`. -/
def dictSet2 (d : List (String × List (String × List String)))
    (k1 k2 : String) (v : List String) :
    List (String × List (String × List String)) :=
  match lookupA d k1 with
  | none => dictSet d k1 [(k2, v)]
  | some inner => dictSet d k1 (dictSet inner k2 v)

/-- Embedding of `count_library_components` (std_library_parser.py
lines 89-135).  The external `ast.parse` used by `extract_imports` is the
parameter `parser`.  `Counter(matches)` is kept as the raw match list: the
counter of a name is its count in the list.  Function and exception
components are matched as `alias\.(name)`, method, class and attribute
components as `\.(?:name)` with the dot stripped, and every other component
type — in particular the `from_import_` tagged ones — as whole words not
preceded by a dot. -/
def count_library_components (parser : String → Except PyParseError (List PyAST))
    (code_chunk : String)
    (library_dict : List (String × List (String × List String))) :
    Option (String × List (String × List (String × List String))) :=
  match searchHeader code_chunk.data with
  | none => none
  | some id_and_size =>
    let chunk_id := String.mk (id_and_size.takeWhile (fun c => c != ','))
    let code := replaceAllL (replaceAllL code_chunk.data id_and_size []) ['"', '"'] ['"']
    let import_statements := extract_imports parser (String.mk code)
    let components_to_search := get_components_to_search import_statements library_dict
    let counts := components_to_search.foldl (fun acc entry =>
      entry.2.foldl (fun acc2 comp =>
        if comp.2.isEmpty then acc2
        else
          let matchesList :=
            if comp.1 = "function" ∨ comp.1 = "exception" then
              findallAliasDot entry.1.2.data comp.2 code
            else if comp.1 = "method" ∨ comp.1 = "class" ∨ comp.1 = "attribute" then
              findallDotName comp.2 code
            else
              findallWordNoDot comp.2 code
          if matchesList.isEmpty then acc2
          else dictSet2 acc2 entry.1.1 comp.1 matchesList) acc) []
    some (chunk_id, counts)

/-- A successful literal-prefix drop decomposes the text. -/
theorem dropPrefixChars_eq (p : List Char) :
    ∀ t r, dropPrefixChars p t = some r → t = p ++ r := by
  induction p with
  | nil =>
    intro t r h
    simp only [dropPrefixChars, Option.some.injEq] at h
    rw [← h, List.nil_append]
  | cons p₀ ps ih =>
    intro t r h
    cases t with
    | nil => simp [dropPrefixChars] at h
    | cons c cs =>
      simp only [dropPrefixChars] at h
      by_cases he : p₀ = c
      · rw [if_pos he] at h
        subst he
        rw [List.cons_append, ih cs r h]
      · rw [if_neg he] at h
        exact Option.noConfusion h

/-- The snippet of the C9 counterexample: a plain import of `os` followed
by a call through the unrelated identifier `myos`. -/
def c9Code : String := "import os\nmyos.getcwd()"

/-- A valid 40-character identifier for the C9 counterexample record. -/
def c9Id : String := String.mk (List.replicate 40 'a')

/-- The CPython syntax tree body of `c9Code`. -/
def c9Body : List PyAST :=
  [PyAST.PyImport [("os", none)],
   PyAST.ExprStmt (PyAST.Call (PyAST.Attribute (PyAST.Name "myos") "getcwd") [])]

/-- A parser behaving as `ast.parse` does on `c9Code`. -/
def c9Parser : String → Except PyParseError (List PyAST) :=
  fun s => if s = c9Code then Except.ok c9Body else Except.error PyParseError.syntaxError

/-- A library dictionary holding only the `os` function `getcwd`. -/
def c9Dict : List (String × List (String × List String)) :=
  [("os", [("function", ["getcwd"])])]

/-- C9 counterexample: in the snippet `import os` / `myos.getcwd()` the name
`getcwd` is never accessed through the module alias `os` — the only
occurrence of `os.getcwd` is the suffix of the identifier `myos` — yet
`count_library_components` counts one `getcwd` occurrence for `os`, because
the pattern `os\.(getcwd)` carries no word boundary before the alias.  The
specification-modelled matcher that requires genuine alias access finds
nothing. -/
theorem alias_suffix_identifier_is_counted :
    count_library_components c9Parser (c9Id ++ ",22,\"" ++ c9Code) c9Dict
      = some (c9Id, [("os", [("function", ["getcwd"])])])
    ∧ specAliasAccessMatches "os".data ["getcwd"] c9Code.data = [] := by
  constructor
  · decide
  · decide

/-- C9 (amended): the function/exception matcher counts every textual
occurrence of `alias.name`, including when the alias text is merely the
suffix of a longer identifier: for every dot-free prefix `pre`, scanning
`pre ++ "os.getcwd()"` yields exactly one `getcwd` match, even though for
a non-empty word prefix the access is through a different identifier. -/
theorem findallAliasDot_counts_suffix_alias (pre : List Char)
    (hpre : '.' ∉ pre) :
    findallAliasDot "os".data ["getcwd"] (pre ++ "os.getcwd()".data)
      = ["getcwd"] := by
  induction pre with
  | nil => decide
  | cons c preT ih =>
    have hpreT : '.' ∉ preT := fun h => hpre (List.mem_cons_of_mem _ h)
    rw [show (c :: preT) ++ "os.getcwd()".data
        = c :: (preT ++ "os.getcwd()".data) from rfl]
    cases hmatch : aliasDotMatchAt "os".data ["getcwd"]
        (c :: (preT ++ "os.getcwd()".data)) with
    | some pr =>
      exfalso
      cases hdp : dropPrefixChars ("os".data ++ ['.'])
          (c :: (preT ++ "os.getcwd()".data)) with
      | none =>
        unfold aliasDotMatchAt at hmatch
        rw [hdp] at hmatch
        exact Option.noConfusion hmatch
      | some mid =>
        have heq := dropPrefixChars_eq _ _ _ hdp
        cases preT with
        | nil =>
          simp only [show ("os".data ++ ['.']) = ['o', 's', '.'] from rfl,
            List.cons_append, List.nil_append, List.cons.injEq] at heq
          exact absurd heq.2.1 (by decide)
        | cons x pre2 =>
          cases pre2 with
          | nil =>
            simp only [show ("os".data ++ ['.']) = ['o', 's', '.'] from rfl,
              List.cons_append, List.nil_append, List.cons.injEq] at heq
            exact absurd heq.2.2.1 (by decide)
          | cons y pre3 =>
            simp only [show ("os".data ++ ['.']) = ['o', 's', '.'] from rfl,
              List.cons_append, List.cons.injEq] at heq
            apply hpre
            rw [show ('.' : Char) = y from heq.2.2.1.symm]
            simp
    | none =>
      simp only [findallAliasDot]
      rw [show ((c :: (preT ++ "os.getcwd()".data)).length)
          = (preT ++ "os.getcwd()".data).length + 1 from rfl]
      simp only [findallAliasDotGo, hmatch]
      exact ih hpreT

/-- Witness for the amended C9 theorem at the prefix `my` (the identifier
`myos`). -/
theorem findallAliasDot_counts_suffix_alias_witness :
    '.' ∉ ['m', 'y']
    ∧ findallAliasDot "os".data ["getcwd"] (['m', 'y'] ++ "os.getcwd()".data)
        = ["getcwd"] :=
  ⟨by decide, findallAliasDot_counts_suffix_alias ['m', 'y'] (by decide)⟩

/-- A successful alternative match consumes the non-empty name from the
front of the text. -/
theorem wndAltMatch_some :
    ∀ (names : List String) (text : List Char) (n : String) (rest : List Char),
      wndAltMatch names text = some (n, rest) →
      n.data ≠ [] ∧ dropPrefixChars n.data text = some rest := by
  intro names
  induction names with
  | nil => intro text n rest h; simp [wndAltMatch] at h
  | cons n₀ ns ih =>
    intro text n rest h
    simp only [wndAltMatch] at h
    cases hd : n₀.data with
    | nil =>
      simp only [hd] at h
      exact ih text n rest h
    | cons d ds =>
      simp only [hd] at h
      cases hdp : dropPrefixChars (d :: ds) text with
      | none =>
        simp only [hdp] at h
        exact ih text n rest h
      | some r =>
        simp only [hdp] at h
        by_cases hb : (isWordOpt (d :: ds).getLast? != isWordOpt r.head?) = true
        · rw [if_pos hb] at h
          have hpr := Option.some.inj h
          injection hpr with h1 h2
          subst h1
          subst h2
          exact ⟨by rw [hd]; exact List.cons_ne_nil _ _, by rw [hd]; exact hdp⟩
        · rw [if_neg hb] at h
          exact ih text n rest h

/-- A successful word-boundary match strictly shortens the text. -/
theorem wndMatchAt_some_length (names : List String) (prev : Option Char)
    (c : Char) (t : List Char) (n : String) (rest : List Char)
    (h : wndMatchAt names prev (c :: t) = some (n, rest)) :
    rest.length ≤ t.length := by
  simp only [wndMatchAt] at h
  by_cases h1 : (prev == some '.') = true
  · rw [if_pos h1] at h
    exact Option.noConfusion h
  · rw [if_neg h1] at h
    by_cases h2 : (isWordOpt prev == wordChar c) = true
    · rw [if_pos h2] at h
      exact Option.noConfusion h
    · rw [if_neg h2] at h
      obtain ⟨hne, hdp⟩ := wndAltMatch_some names (c :: t) n rest h
      have heq := dropPrefixChars_eq _ _ _ hdp
      have hlen := congrArg List.length heq
      cases hq : n.data with
      | nil => exact absurd hq hne
      | cons a as =>
        rw [hq] at hlen
        simp only [List.length_cons, List.length_append] at hlen
        omega

/-- Advancing the scan by one position when no match starts here. -/
theorem findallWNDGo_step (names : List String) (prev : Option Char)
    (c : Char) (t : List Char) (fuel : Nat)
    (h : wndMatchAt names prev (c :: t) = none) :
    findallWNDGo names prev (fuel + 1) (c :: t)
      = findallWNDGo names (some c) fuel t := by
  simp only [findallWNDGo, h]

/-- Collecting a match and continuing after it. -/
theorem findallWNDGo_match (names : List String) (prev : Option Char)
    (c : Char) (t : List Char) (fuel : Nat) (n : String) (rest : List Char)
    (h : wndMatchAt names prev (c :: t) = some (n, rest)) :
    findallWNDGo names prev (fuel + 1) (c :: t)
      = n :: findallWNDGo names n.data.getLast? fuel rest := by
  simp only [findallWNDGo, h]

/-- The scan result does not depend on the amount of fuel, as long as it is
at least the text length. -/
theorem findallWNDGo_fuel (names : List String) :
    ∀ (fuel : Nat) (text : List Char) (prev : Option Char), text.length ≤ fuel →
      findallWNDGo names prev fuel text
        = findallWNDGo names prev text.length text := by
  intro fuel
  induction fuel using Nat.strong_induction_on with
  | _ fuel ih =>
    intro text prev h
    cases text with
    | nil => cases fuel <;> rfl
    | cons c t =>
      cases fuel with
      | zero => simp at h
      | succ f =>
        have ht : t.length ≤ f := by
          simp only [List.length_cons] at h
          omega
        cases hm : wndMatchAt names prev (c :: t) with
        | none =>
          rw [findallWNDGo_step names prev c t f hm,
            show ((c :: t).length) = t.length + 1 from rfl,
            findallWNDGo_step names prev c t t.length hm]
          exact ih f (Nat.lt_succ_self f) t (some c) ht
        | some pr =>
          obtain ⟨n, rest⟩ := pr
          have hlen : rest.length ≤ t.length :=
            wndMatchAt_some_length names prev c t n rest hm
          rw [findallWNDGo_match names prev c t f n rest hm,
            show ((c :: t).length) = t.length + 1 from rfl,
            findallWNDGo_match names prev c t t.length n rest hm,
            ih f (Nat.lt_succ_self f) rest _ (le_trans hlen ht),
            ih t.length (Nat.lt_succ_of_le ht) rest _ hlen]

/-- The from-import line of the C10 snippet family. -/
def importLine : String := "from os import getcwd\n"

/-- The characters of `k` free-standing uses of `getcwd`, one call
`getcwd()` per line. -/
def usesData : Nat → List Char
  | 0 => []
  | k + 1 => "getcwd()\n".data ++ usesData k

/-- The C10 snippet family: the from-import line followed by `k`
free-standing uses of the imported name. -/
def codeFor (k : Nat) : String := String.mk (importLine.data ++ usesData k)

/-- A valid 40-character identifier for the C10 record family. -/
def c10Id : String := String.mk (List.replicate 40 'b')

/-- The C10 record family: a valid header with declared size 5 followed by
the snippet. -/
def chunkFor (k : Nat) : String := c10Id ++ ",5,\"" ++ codeFor k

/-- No double quote occurs in the use lines. -/
theorem quote_not_mem_usesData (k : Nat) : '"' ∉ usesData k := by
  induction k with
  | zero => simp [usesData]
  | succ k ih =>
    intro h
    rcases List.mem_append.mp h with h | h
    · exact absurd h (by decide)
    · exact ih h

/-- Scanning the `k` use lines from a non-word, non-dot position finds
exactly `k` whole-word `getcwd` occurrences. -/
theorem findallWNDGo_uses (k : Nat) :
    ∀ prev, isWordOpt prev = false → prev ≠ some '.' →
      findallWNDGo ["getcwd"] prev (usesData k).length (usesData k)
        = List.replicate k "getcwd" := by
  induction k with
  | zero => intro prev _ _; rfl
  | succ k ih =>
    intro prev hw hd
    have h1 : (prev == some '.') = false := by
      rw [beq_eq_false_iff_ne]
      exact hd
    have h2 : (isWordOpt prev == wordChar 'g') = false := by
      rw [hw]
      rfl
    have hm : wndMatchAt ["getcwd"] prev (usesData (k + 1))
        = some ("getcwd", '(' :: ')' :: '\n' :: usesData k) := by
      rw [show usesData (k + 1)
          = 'g' :: ("etcwd()\n".data ++ usesData k) from rfl]
      simp only [wndMatchAt, h1, h2, Bool.false_eq_true, if_false]
      rfl
    rw [show ((usesData (k + 1)).length)
        = ("etcwd()\n".data ++ usesData k).length + 1 from rfl,
      show usesData (k + 1) = 'g' :: ("etcwd()\n".data ++ usesData k) from rfl]
    rw [findallWNDGo_match _ _ _ _ _ _ _ (by
      rw [show ('g' :: ("etcwd()\n".data ++ usesData k))
          = usesData (k + 1) from rfl]
      exact hm)]
    have hfe : ('(' :: ')' :: '\n' :: usesData k).length
        ≤ ("etcwd()\n".data ++ usesData k).length := by
      have hx : ("etcwd()\n".data).length = 8 := rfl
      simp only [List.length_cons, List.length_append, hx]
      omega
    rw [findallWNDGo_fuel ["getcwd"] _ _ _ hfe]
    rw [show (('(' :: ')' :: '\n' :: usesData k).length) = (')' :: '\n' :: usesData k).length + 1 from rfl,
      findallWNDGo_step _ _ _ _ _ (by rfl)]
    rw [show ((')' :: '\n' :: usesData k).length) = ('\n' :: usesData k).length + 1 from rfl,
      findallWNDGo_step _ _ _ _ _ (by rfl)]
    rw [show (('\n' :: usesData k).length) = (usesData k).length + 1 from rfl,
      findallWNDGo_step _ _ _ _ _ (by rfl)]
    rw [ih (some '\n') (by rfl) (by decide)]
    rfl

/-- Scanning the import line itself finds one `getcwd` occurrence — the one
inside the `from os import getcwd` statement — and hands the scan over to
the rest of the text after the newline. -/
theorem findallWNDGo_import_line (T : List Char) :
    findallWNDGo ["getcwd"] none ("from os import getcwd\n".data ++ T).length
        ("from os import getcwd\n".data ++ T)
      = "getcwd" :: findallWNDGo ["getcwd"] (some '\n') T.length T := by
  rw [show ("from os import getcwd\n".data ++ T) = 'f' :: ("rom os import getcwd\n".data ++ T) from rfl,
    show (('f' :: ("rom os import getcwd\n".data ++ T)).length)
      = ("rom os import getcwd\n".data ++ T).length + 1 from rfl,
    findallWNDGo_step _ _ _ _ _ (by rfl)]
  rw [show ("rom os import getcwd\n".data ++ T) = 'r' :: ("om os import getcwd\n".data ++ T) from rfl,
    show (('r' :: ("om os import getcwd\n".data ++ T)).length)
      = ("om os import getcwd\n".data ++ T).length + 1 from rfl,
    findallWNDGo_step _ _ _ _ _ (by rfl)]
  rw [show ("om os import getcwd\n".data ++ T) = 'o' :: ("m os import getcwd\n".data ++ T) from rfl,
    show (('o' :: ("m os import getcwd\n".data ++ T)).length)
      = ("m os import getcwd\n".data ++ T).length + 1 from rfl,
    findallWNDGo_step _ _ _ _ _ (by rfl)]
  rw [show ("m os import getcwd\n".data ++ T) = 'm' :: (" os import getcwd\n".data ++ T) from rfl,
    show (('m' :: (" os import getcwd\n".data ++ T)).length)
      = (" os import getcwd\n".data ++ T).length + 1 from rfl,
    findallWNDGo_step _ _ _ _ _ (by rfl)]
  rw [show (" os import getcwd\n".data ++ T) = ' ' :: ("os import getcwd\n".data ++ T) from rfl,
    show ((' ' :: ("os import getcwd\n".data ++ T)).length)
      = ("os import getcwd\n".data ++ T).length + 1 from rfl,
    findallWNDGo_step _ _ _ _ _ (by rfl)]
  rw [show ("os import getcwd\n".data ++ T) = 'o' :: ("s import getcwd\n".data ++ T) from rfl,
    show (('o' :: ("s import getcwd\n".data ++ T)).length)
      = ("s import getcwd\n".data ++ T).length + 1 from rfl,
    findallWNDGo_step _ _ _ _ _ (by rfl)]
  rw [show ("s import getcwd\n".data ++ T) = 's' :: (" import getcwd\n".data ++ T) from rfl,
    show (('s' :: (" import getcwd\n".data ++ T)).length)
      = (" import getcwd\n".data ++ T).length + 1 from rfl,
    findallWNDGo_step _ _ _ _ _ (by rfl)]
  rw [show (" import getcwd\n".data ++ T) = ' ' :: ("import getcwd\n".data ++ T) from rfl,
    show ((' ' :: ("import getcwd\n".data ++ T)).length)
      = ("import getcwd\n".data ++ T).length + 1 from rfl,
    findallWNDGo_step _ _ _ _ _ (by rfl)]
  rw [show ("import getcwd\n".data ++ T) = 'i' :: ("mport getcwd\n".data ++ T) from rfl,
    show (('i' :: ("mport getcwd\n".data ++ T)).length)
      = ("mport getcwd\n".data ++ T).length + 1 from rfl,
    findallWNDGo_step _ _ _ _ _ (by rfl)]
  rw [show ("mport getcwd\n".data ++ T) = 'm' :: ("port getcwd\n".data ++ T) from rfl,
    show (('m' :: ("port getcwd\n".data ++ T)).length)
      = ("port getcwd\n".data ++ T).length + 1 from rfl,
    findallWNDGo_step _ _ _ _ _ (by rfl)]
  rw [show ("port getcwd\n".data ++ T) = 'p' :: ("ort getcwd\n".data ++ T) from rfl,
    show (('p' :: ("ort getcwd\n".data ++ T)).length)
      = ("ort getcwd\n".data ++ T).length + 1 from rfl,
    findallWNDGo_step _ _ _ _ _ (by rfl)]
  rw [show ("ort getcwd\n".data ++ T) = 'o' :: ("rt getcwd\n".data ++ T) from rfl,
    show (('o' :: ("rt getcwd\n".data ++ T)).length)
      = ("rt getcwd\n".data ++ T).length + 1 from rfl,
    findallWNDGo_step _ _ _ _ _ (by rfl)]
  rw [show ("rt getcwd\n".data ++ T) = 'r' :: ("t getcwd\n".data ++ T) from rfl,
    show (('r' :: ("t getcwd\n".data ++ T)).length)
      = ("t getcwd\n".data ++ T).length + 1 from rfl,
    findallWNDGo_step _ _ _ _ _ (by rfl)]
  rw [show ("t getcwd\n".data ++ T) = 't' :: (" getcwd\n".data ++ T) from rfl,
    show (('t' :: (" getcwd\n".data ++ T)).length)
      = (" getcwd\n".data ++ T).length + 1 from rfl,
    findallWNDGo_step _ _ _ _ _ (by rfl)]
  rw [show (" getcwd\n".data ++ T) = ' ' :: ("getcwd\n".data ++ T) from rfl,
    show ((' ' :: ("getcwd\n".data ++ T)).length)
      = ("getcwd\n".data ++ T).length + 1 from rfl,
    findallWNDGo_step _ _ _ _ _ (by rfl)]
  rw [show ("getcwd\n".data ++ T) = 'g' :: ("etcwd\n".data ++ T) from rfl,
    show (('g' :: ("etcwd\n".data ++ T)).length)
      = ("etcwd\n".data ++ T).length + 1 from rfl,
    findallWNDGo_match _ _ _ _ _ _ _
      (show wndMatchAt ["getcwd"] (some ' ') ('g' :: ("etcwd\n".data ++ T))
        = some ("getcwd", '\n' :: T) from rfl)]
  have hfe : ('\n' :: T).length ≤ ("etcwd\n".data ++ T).length := by
    have hx : ("etcwd\n".data).length = 6 := rfl
    simp only [List.length_cons, List.length_append, hx]
    omega
  rw [findallWNDGo_fuel ["getcwd"] _ _ _ hfe]
  rw [show (('\n' :: T).length) = T.length + 1 from rfl,
    findallWNDGo_step _ _ _ _ _ (by rfl)]

/-- Scanning the whole C10 snippet finds the import-statement occurrence
plus the `k` uses: `k + 1` matches in total. -/
theorem findallWordNoDot_codeFor (k : Nat) :
    findallWordNoDot ["getcwd"] (codeFor k).data
      = List.replicate (k + 1) "getcwd" := by
  rw [show (codeFor k).data = "from os import getcwd\n".data ++ usesData k from rfl]
  rw [show findallWordNoDot ["getcwd"] ("from os import getcwd\n".data ++ usesData k)
      = findallWNDGo ["getcwd"] none
          ("from os import getcwd\n".data ++ usesData k).length
          ("from os import getcwd\n".data ++ usesData k) from rfl]
  rw [findallWNDGo_import_line (usesData k)]
  rw [findallWNDGo_uses k (some '\n') (by rfl) (by decide)]
  rw [List.replicate_succ]

/-- Counting a name in its own replication. -/
theorem count_replicate_getcwd (n : Nat) :
    (List.replicate n "getcwd").count "getcwd" = n := by
  induction n with
  | zero => rfl
  | succ n ih => simp [List.replicate_succ, List.count_cons, ih]

/-- C10: for every record of the C10 family — a valid header followed by
`from os import getcwd` and `k` free-standing uses of `getcwd` — and every
parser behaving as `ast.parse` does on that snippet (the import table binds
`os` to itself with direct import `getcwd`), `count_library_components`
reports `k + 1` matches of `getcwd` in the `from_import_function` bucket of
`os`: the occurrence inside the import statement itself is counted along
with the `k` uses.  `Counter(matches)` of the source is the match list, so
the counter value of `getcwd` is its count in the list, `k + 1`. -/
theorem count_library_counts_import_statement (k : Nat)
    (parser : String → Except PyParseError (List PyAST))
    (hp : extract_imports parser (codeFor k) = [("os", ("os", ["getcwd"]))]) :
    count_library_components parser (chunkFor k) c9Dict
      = some (c10Id, [("os", [("from_import_function",
          List.replicate (k + 1) "getcwd")])])
    ∧ (List.replicate (k + 1) "getcwd").count "getcwd" = k + 1 := by
  refine ⟨?_, count_replicate_getcwd (k + 1)⟩
  have hdata : (chunkFor k).data
      = c10Id.data ++ ',' :: (['5'] ++ ',' :: '"' :: (codeFor k).data) := by
    rw [show chunkFor k = c10Id ++ ",5,\"" ++ codeFor k from rfl]
    rw [String.data_append, String.data_append,
      show ((",5,\"" : String).data) = [',', '5', ',', '"'] from rfl]
    simp
  have hquote : '"' ∉ (codeFor k).data := by
    rw [show (codeFor k).data = importLine.data ++ usesData k from rfl]
    intro h
    rcases List.mem_append.mp h with h | h
    · exact absurd h (by decide)
    · exact quote_not_mem_usesData k h
  have hsearch : searchHeader (chunkFor k).data
      = some (c10Id.data ++ [',', '5', ',', '"']) := by
    rw [hdata]
    have h := searchHeaderWith_of_headerMatchAt isLowerAlnum _ _
      (headerMatchAt_of_shape isLowerAlnum c10Id.data ['5'] (codeFor k).data
        (by decide) (by decide) (by simp) (by decide))
    simpa using h
  have hm2 : (chunkFor k).data
      = (c10Id.data ++ [',', '5', ',', '"']) ++ (codeFor k).data := by
    rw [hdata]
    try simp
  have hrepl : replaceAllL (chunkFor k).data
      (c10Id.data ++ [',', '5', ',', '"']) [] = (codeFor k).data := by
    rw [hm2]
    exact replaceAllL_header _ _ '"' (by simp) hquote
  have hrepl2 : replaceAllL (codeFor k).data ['"', '"'] ['"'] = (codeFor k).data := by
    simp only [replaceAllL]
    exact replaceAllGo_no_occurrence '"' ['"'] ['"'] '"' (by simp) _ _
      (le_refl _) hquote
  have htake : String.mk ((c10Id.data ++ [',', '5', ',', '"']).takeWhile
      (fun c => c != ',')) = c10Id := by
    have h := takeWhile_append_stop (fun c => c != ',') c10Id.data ','
      ['5', ',', '"'] (by decide) (by decide)
    rw [h]
  have hg : get_components_to_search [("os", ("os", ["getcwd"]))] c9Dict
      = [(("os", "os"), [("from_import_function", ["getcwd"])])] := rfl
  have hcount := findallWordNoDot_codeFor k
  simp only [count_library_components, hsearch, hrepl, hrepl2, htake,
    stringMk_data, hp, hg, List.foldl_cons, List.foldl_nil]
  rw [if_neg (show ¬(("from_import_function" = "function")
      ∨ ("from_import_function" = "exception")) from by decide)]
  rw [if_neg (show ¬(("from_import_function" = "method")
      ∨ ("from_import_function" = "class")
      ∨ ("from_import_function" = "attribute")) from by decide)]
  rw [hcount]
  rw [if_neg (show ¬((["getcwd"] : List String).isEmpty = true) from by decide)]
  rw [show ((List.replicate (k + 1) "getcwd").isEmpty) = false from by
    rw [List.replicate_succ]
    rfl]
  rfl

/-- The CPython syntax tree body of `codeFor 1`. -/
def c10Body : List PyAST :=
  [PyAST.PyImportFrom "os" [("getcwd", none)],
   PyAST.ExprStmt (PyAST.Call (PyAST.Name "getcwd") [])]

/-- A parser behaving as `ast.parse` does on `codeFor 1`. -/
def c10Parser : String → Except PyParseError (List PyAST) :=
  fun s => if s = codeFor 1 then Except.ok c10Body
    else Except.error PyParseError.syntaxError

/-- Witness for C10 at `k = 1`: one import line and one use give the
counter value 2. -/
theorem count_library_counts_import_statement_witness :
    extract_imports c10Parser (codeFor 1) = [("os", ("os", ["getcwd"]))]
    ∧ (count_library_components c10Parser (chunkFor 1) c9Dict
        = some (c10Id, [("os", [("from_import_function",
            List.replicate 2 "getcwd")])])
      ∧ (List.replicate 2 "getcwd").count "getcwd" = 2) :=
  ⟨by decide, count_library_counts_import_statement 1 c10Parser (by decide)⟩
